import Mathlib

/-!
A first-fit free-list allocator (`src/memory/memory.c`).

Shallow embedding of `memory_alloc`, `memory_free` and `increase_heap`.

* Addresses are natural numbers counted in header units (`sizeof(Header)` bytes each), the
  unit of the C pointer arithmetic `block + 1 + block->size`.
* `NULL` is address `0`; the static sentinel `base` lives at address `BASE = 1`, below the
  region handed out by the growth primitive.
* `unsigned int` values are natural numbers reduced modulo `2 ^ 32` wherever the C
  arithmetic can wrap.
* The two `for` loops are recursive functions with a fuel argument that counts loop tests;
  running out of fuel is the result `none`.
* `sbrk` is not part of the repository: it is a parameter of `increase_heap` and
  `memory_alloc`.
* A `sbrk` that can fail has type `SbrkF`, with `none` for the failure value `(void *) -1`.
  The code stores through the value of `sbrk` without testing it, and the failure value is
  not an address of the process: in `memory_allocF` that store ends the call with the outcome
  `Outcome.killed`.
-/

namespace Tlpi

/-- The record `struct header`: `size` is an `unsigned int`, `next` a `struct header *`. -/
structure Header where
  size : Nat
  next : Nat

/-- The null pointer. -/
abbrev NULL : Nat := 0

/-- The address `&base` of the static sentinel. -/
abbrev BASE : Nat := 1

/-- Number of values of an `unsigned int`. -/
abbrev UINT : Nat := 2 ^ 32

/-- Allocator state: the global `free_list`, the memory holding every `Header` (the static
`base` included, at address `BASE`), and the cursor of the growth primitive. -/
structure State where
  free_list : Nat
  mem : Nat → Header
  brk : Nat

/-- The store `a->size = v`. -/
def State.setSize (s : State) (a v : Nat) : State :=
  { s with mem := fun x => if x = a then { s.mem x with size := v } else s.mem x }

/-- The store `a->next = v`. -/
def State.setNext (s : State) (a v : Nat) : State :=
  { s with mem := fun x => if x = a then { s.mem x with next := v } else s.mem x }

/-- The store `free_list = v`. -/
def State.setFreeList (s : State) (v : Nat) : State := { s with free_list := v }

/-- The growth primitive `sbrk`: from the requested increment in bytes and the current
cursor, the pointer it returns and the new cursor. -/
abbrev Sbrk : Type := Nat → Nat → Nat × Nat

/-- A growth primitive that always succeeds: a bump cursor. The cursor is counted in header
units, so an increment of `incr` bytes moves it by `incr / hs`. -/
def sbrkBump (hs : Nat) : Sbrk := fun incr brk => (brk, brk + incr / hs)

/-- The macro `NUNITS(bytes)`, `bytes / HEADER_SIZE`. -/
def NUNITS (hs bytes : Nat) : Nat := bytes / hs

/-- The first three lines of `memory_alloc`: `unsigned int nunits = NUNITS(bytes);
if(!nunits) nunits = 1;`. The quotient is truncated to an `unsigned int`. -/
def nunitsOf (hs bytes : Nat) : Nat :=
  let nunits := NUNITS hs bytes % UINT
  if nunits = 0 then 1 else nunits

/-- The byte count `increase_heap` passes to `sbrk`: `MIN_ALLOC` when `units <= 1`, else
`(1 + units) * HEADER_SIZE` with `1 + units` computed as an `unsigned int`; the product with
the `size_t` header width is below `2 ^ 64` for every real header width and is left exact. -/
def heapIncr (hs units : Nat) : Nat :=
  if units ≤ 1 then hs * 2 else (1 + units) % UINT * hs

/-- The function `increase_heap`: returns the new block and the state after it. -/
def increase_heap (sbrk : Sbrk) (hs units : Nat) (s : State) : Nat × State :=
  let r := sbrk (heapIncr hs units) s.brk
  let block := r.1
  let s := { s with brk := r.2 }
  let s := s.setSize block units
  let s := s.setNext block NULL
  (block, s)

/-- The `for` loop of `memory_alloc`, entered at its test `block != &base`.
`some (some p, s)` is `return p`, `some (none, s)` is leaving the loop without a fit. -/
def allocLoop (nunits : Nat) : Nat → Nat → Nat → State → Option (Option Nat × State)
  | 0, _, _, _ => none
  | fuel + 1, previous, block, s =>
    if block = BASE then some (none, s)
    else if nunits ≤ (s.mem block).size then
      if nunits = (s.mem block).size then
        let s := s.setNext previous (s.mem block).next
        let s := s.setNext block NULL
        some (some (block + 1), s)
      else
        let remain_block := block + 1 + nunits
        let s := s.setSize remain_block ((s.mem block).size - 1 - nunits)
        let s := s.setNext remain_block (s.mem block).next
        let s := s.setNext previous remain_block
        let s := s.setSize block nunits
        some (some (block + 1), s)
    else allocLoop nunits fuel block (s.mem block).next s

/-- The block `if(!free_list){...}` of `memory_alloc`. -/
def firstCall (sbrk : Sbrk) (hs nunits : Nat) (s : State) : State :=
  if s.free_list = NULL then
    let r := increase_heap sbrk hs nunits s
    let block := r.1
    let s := r.2
    let s := s.setNext block BASE
    let s := s.setSize BASE 0
    let s := s.setNext BASE block
    s.setFreeList BASE
  else s

/-- The function `memory_alloc`: the returned pointer and the state after the call. -/
def memory_alloc (sbrk : Sbrk) (hs bytes fuel : Nat) (s : State) : Option (Nat × State) :=
  let nunits := nunitsOf hs bytes
  let s := firstCall sbrk hs nunits s
  match allocLoop nunits fuel BASE (s.mem BASE).next s with
  | none => none
  | some (some p, s) => some (p, s)
  | some (none, s) =>
    let r := increase_heap sbrk hs nunits s
    some (r.1 + 1, r.2)

/-- A growth primitive that can fail: `none` is the failure value `(void *) -1`. -/
abbrev SbrkF : Type := Nat → Nat → Option Nat × Nat

/-- A growth primitive that fails at every call and leaves the cursor where it is. -/
def sbrkFails : SbrkF := fun _ brk => (none, brk)

/-- The ways a call of `memory_alloc` ends: it returns a pointer, or the process is killed
inside the call. -/
inductive Outcome where
  | returned (ptr : Nat) (s : State)
  | killed

/-- The function `increase_heap` with a growth primitive that can fail. The code does not
test the value of `sbrk`: the next statement, `block->size = units`, stores through it. The
failure value `(void *) -1` is not an address of the process, so that store ends the process
(SIGSEGV) and `increase_heap` does not return: the result `none`. -/
def increase_heapF (sbrk : SbrkF) (hs units : Nat) (s : State) : Option (Nat × State) :=
  let r := sbrk (heapIncr hs units) s.brk
  match r.1 with
  | none => none
  | some block =>
    let s := { s with brk := r.2 }
    let s := s.setSize block units
    let s := s.setNext block NULL
    some (block, s)

/-- The block `if(!free_list){...}` of `memory_alloc` with a growth primitive that can fail;
`none` when the process is killed inside `increase_heap`. -/
def firstCallF (sbrk : SbrkF) (hs nunits : Nat) (s : State) : Option State :=
  if s.free_list = NULL then
    match increase_heapF sbrk hs nunits s with
    | none => none
    | some r =>
      let block := r.1
      let s := r.2
      let s := s.setNext block BASE
      let s := s.setSize BASE 0
      let s := s.setNext BASE block
      some (s.setFreeList BASE)
  else some s

/-- The function `memory_alloc` with a growth primitive that can fail: the same statements as
`memory_alloc`, with the outcome of the call; `none` is running out of fuel in the walk. -/
def memory_allocF (sbrk : SbrkF) (hs bytes fuel : Nat) (s : State) : Option Outcome :=
  let nunits := nunitsOf hs bytes
  match firstCallF sbrk hs nunits s with
  | none => some Outcome.killed
  | some s =>
    match allocLoop nunits fuel BASE (s.mem BASE).next s with
    | none => none
    | some (some p, s) => some (Outcome.returned p s)
    | some (none, s) =>
      match increase_heapF sbrk hs nunits s with
      | none => some Outcome.killed
      | some r => some (Outcome.returned (r.1 + 1) r.2)

/-- The `for` loop of `memory_free` together with the two stores after it. The assignments
`ptr = NULL` only change the local parameter and are left out. -/
def freeLoop (fblock : Nat) : Nat → Nat → Nat → State → Option State
  | 0, _, _, _ => none
  | fuel + 1, previous, block, s =>
    if block = BASE then
      let s := s.setNext previous fblock
      let s := s.setNext fblock BASE
      some s
    else if block + 1 + (s.mem block).size = fblock then
      some (s.setSize block (((s.mem block).size + (s.mem fblock).size) % UINT))
    else if fblock + 1 + (s.mem fblock).size = block then
      let s := s.setSize fblock (((s.mem fblock).size + ((s.mem block).size + 1) % UINT) % UINT)
      let s := s.setNext fblock (s.mem block).next
      let s := s.setNext previous fblock
      some s
    else freeLoop fblock fuel block (s.mem block).next s

/-- The function `memory_free`. -/
def memory_free (ptr fuel : Nat) (s : State) : Option State :=
  let fblock := ptr - 1
  freeLoop fblock fuel BASE (s.mem BASE).next s

/-- The allocator before any call: `free_list` is `NULL`, the static `base` is zeroed and
the growth cursor stands at `h0`. -/
def initState (h0 : Nat) : State :=
  { free_list := NULL, mem := fun _ => ⟨0, 0⟩, brk := h0 }

/-- A call of the public interface. -/
inductive Op where
  | alloc (bytes : Nat)
  | free (ptr : Nat)
  deriving DecidableEq

/-- One call on a configuration: the state and the pointers returned and not yet freed.
`memory_free` is only called on such a pointer. The growth primitive is the bump cursor. -/
def step (hs fuel : Nat) (c : State × List Nat) : Op → Option (State × List Nat)
  | Op.alloc bytes =>
    match memory_alloc (sbrkBump hs) hs bytes fuel c.1 with
    | some (p, s) => some (s, p :: c.2)
    | none => none
  | Op.free ptr =>
    if ptr ∈ c.2 then
      match memory_free ptr fuel c.1 with
      | some s => some (s, c.2.erase ptr)
      | none => none
    else none

/-- A sequence of calls. -/
def run (hs fuel : Nat) : List Op → State × List Nat → Option (State × List Nat)
  | [], c => some c
  | op :: ops, c =>
    match step hs fuel c op with
    | some c1 => run hs fuel ops c1
    | none => none

/-- The `next` links lead from `p` through the nodes `l`, in order, to `q`. -/
def Seg (s : State) : Nat → List Nat → Nat → Prop
  | p, [], q => (s.mem p).next = q
  | p, b :: l, q => (s.mem p).next = b ∧ Seg s b l q

/-- The last node of `p :: l`. -/
def lastFrom : Nat → List Nat → Nat
  | p, [] => p
  | _, b :: l => lastFrom b l

/-- Validity of an initialised allocator whose region starts at `h0`: `fl` lists the headers
of the free list in traversal order and `live` the headers of the blocks handed out and not
yet released. The list is circular through the sentinel, every block lies inside the region
obtained so far, the region is smaller than `2 ^ 32` units, and the extents
`[b, b + 1 + size)` of distinct blocks are disjoint. -/
structure Inv (h0 : Nat) (s : State) (fl live : List Nat) : Prop where
  fl_init : s.free_list = BASE
  base_size : (s.mem BASE).size = 0
  seg : Seg s BASE fl BASE
  h0_gt : BASE < h0
  brk_ge : h0 ≤ s.brk
  brk_lt : s.brk < h0 + UINT
  nodup : (fl ++ live).Nodup
  bounds : ∀ b ∈ fl ++ live, h0 ≤ b ∧ b + 1 + (s.mem b).size ≤ s.brk
  disj : ∀ a ∈ fl ++ live, ∀ b ∈ fl ++ live, a ≠ b →
    a + 1 + (s.mem a).size ≤ b ∨ b + 1 + (s.mem b).size ≤ a

/-- Validity of a configuration of `run`: either no call has been made yet, or the state is
valid and `live` holds the payload pointers (header plus one) of the live blocks. -/
def Valid (h0 : Nat) (s : State) (live : List Nat) : Prop :=
  (s = initState h0 ∧ live = [] ∧ BASE < h0) ∨
    ∃ fl hd, live = hd.map (· + 1) ∧ Inv h0 s fl hd

/-- A call whose unit count stays inside the `unsigned int` range: `1 + nunits` does not
wrap in `increase_heap`. -/
def Op.small (hs : Nat) : Op → Bool
  | Op.alloc bytes => decide (nunitsOf hs bytes + 1 < UINT)
  | Op.free _ => true

/-- The configurations reached from the never-used allocator by valid calls: the header
width `hs` is positive, the region starts at `h0` above the sentinel, `memory_free` is only
called on live pointers (as `step` requires), every request stays below the `unsigned int`
range (`nunits + 1 < 2 ^ 32`) and the region stays smaller than `2 ^ 32` units, so that no
`unsigned int` arithmetic wraps. -/
def Reachable (hs h0 : Nat) (s : State) (live : List Nat) : Prop :=
  0 < hs ∧ BASE < h0 ∧ ∃ ops fuel, (∀ op ∈ ops, Op.small hs op = true) ∧
    run hs fuel ops (initState h0, []) = some (s, live) ∧ s.brk < h0 + UINT

/-- The configuration after a sequence of calls on the never-used allocator (the initial
configuration when the sequence does not complete). -/
def after (hs h0 fuel : Nat) (ops : List Op) : State × List Nat :=
  (run hs fuel ops (initState h0, [])).getD (initState h0, [])

/-- Total free capacity: the sum of `size` over the free-list blocks `fl`. -/
def freeCapacity (s : State) (fl : List Nat) : Nat :=
  (fl.map fun b => (s.mem b).size).sum

/-! ## Stores and projections -/

@[simp] theorem setSize_size (s : State) (a v x : Nat) :
    ((s.setSize a v).mem x).size = if x = a then v else (s.mem x).size := by
  unfold State.setSize
  by_cases h : x = a <;> simp [h]

@[simp] theorem setSize_next (s : State) (a v x : Nat) :
    ((s.setSize a v).mem x).next = (s.mem x).next := by
  unfold State.setSize
  by_cases h : x = a <;> simp [h]

@[simp] theorem setNext_next (s : State) (a v x : Nat) :
    ((s.setNext a v).mem x).next = if x = a then v else (s.mem x).next := by
  unfold State.setNext
  by_cases h : x = a <;> simp [h]

@[simp] theorem setNext_size (s : State) (a v x : Nat) :
    ((s.setNext a v).mem x).size = (s.mem x).size := by
  unfold State.setNext
  by_cases h : x = a <;> simp [h]

@[simp] theorem setFreeList_mem (s : State) (v : Nat) : (s.setFreeList v).mem = s.mem := rfl

@[simp] theorem setFreeList_brk (s : State) (v : Nat) : (s.setFreeList v).brk = s.brk := rfl

@[simp] theorem setFreeList_free_list (s : State) (v : Nat) :
    (s.setFreeList v).free_list = v := rfl

@[simp] theorem setSize_brk (s : State) (a v : Nat) : (s.setSize a v).brk = s.brk := rfl

@[simp] theorem setNext_brk (s : State) (a v : Nat) : (s.setNext a v).brk = s.brk := rfl

@[simp] theorem setSize_free_list (s : State) (a v : Nat) :
    (s.setSize a v).free_list = s.free_list := rfl

@[simp] theorem setNext_free_list (s : State) (a v : Nat) :
    (s.setNext a v).free_list = s.free_list := rfl

/-! ## List segments -/

theorem lastFrom_mem : ∀ (l : List Nat) (p : Nat), lastFrom p l ∈ p :: l
  | [], p => by simp [lastFrom]
  | b :: l, p => by
    have := lastFrom_mem l b
    simp only [lastFrom]
    exact List.mem_cons_of_mem _ this

theorem Seg_append (s : State) (l1 : List Nat) (b : Nat) (l2 : List Nat) (q : Nat) :
    ∀ p, Seg s p (l1 ++ b :: l2) q ↔ Seg s p l1 b ∧ Seg s b l2 q := by
  induction l1 with
  | nil => intro p; simp [Seg]
  | cons a l1 ih => intro p; simp [Seg, ih a, and_assoc]

theorem Seg_frame (s t : State) (l : List Nat) (q : Nat) :
    ∀ p, (∀ x ∈ p :: l, (t.mem x).next = (s.mem x).next) → Seg s p l q → Seg t p l q := by
  induction l with
  | nil =>
    intro p h hs
    simp only [Seg] at hs ⊢
    rw [h p (by simp)]; exact hs
  | cons a l ih =>
    intro p h hs
    simp only [Seg] at hs ⊢
    refine ⟨?_, ih a (fun x hx => h x (List.mem_cons_of_mem _ hx)) hs.2⟩
    rw [h p (by simp)]; exact hs.1

theorem allocLoop_skip (n : Nat) (s : State) (h : Nat) :
    ∀ (l : List Nat) (prev fuel : Nat), Seg s prev l h →
      (∀ b ∈ l, b ≠ BASE ∧ (s.mem b).size < n) →
      allocLoop n fuel prev (s.mem prev).next s =
        if fuel ≤ l.length then none else allocLoop n (fuel - l.length) (lastFrom prev l) h s := by
  intro l
  induction l with
  | nil =>
    intro prev fuel hs _
    simp only [Seg] at hs
    cases fuel with
    | zero => simp [allocLoop]
    | succ f => simp [lastFrom, hs]
  | cons a l ih =>
    intro prev fuel hs hl
    simp only [Seg] at hs
    have ha := hl a (by simp)
    cases fuel with
    | zero => simp [allocLoop]
    | succ f =>
      rw [hs.1, allocLoop, if_neg ha.1, if_neg (by omega)]
      rw [ih a f hs.2 (fun b hb => hl b (List.mem_cons_of_mem _ hb))]
      simp [lastFrom]

theorem freeLoop_skip (f : Nat) (s : State) (h : Nat) :
    ∀ (l : List Nat) (prev fuel : Nat), Seg s prev l h →
      (∀ b ∈ l, b ≠ BASE ∧ b + 1 + (s.mem b).size ≠ f ∧ f + 1 + (s.mem f).size ≠ b) →
      freeLoop f fuel prev (s.mem prev).next s =
        if fuel ≤ l.length then none else freeLoop f (fuel - l.length) (lastFrom prev l) h s := by
  intro l
  induction l with
  | nil =>
    intro prev fuel hs _
    simp only [Seg] at hs
    cases fuel with
    | zero => simp [freeLoop]
    | succ k => simp [lastFrom, hs]
  | cons a l ih =>
    intro prev fuel hs hl
    simp only [Seg] at hs
    have ha := hl a (by simp)
    cases fuel with
    | zero => simp [freeLoop]
    | succ k =>
      rw [hs.1, freeLoop, if_neg ha.1, if_neg ha.2.1, if_neg ha.2.2]
      rw [ih a k hs.2 (fun b hb => hl b (List.mem_cons_of_mem _ hb))]
      simp [lastFrom]

/-- A list either has no element with a decidable property, or splits at the first one. -/
theorem first_split (P : Nat → Prop) [DecidablePred P] :
    ∀ l : List Nat, (∀ b ∈ l, ¬ P b) ∨
      ∃ pre h post, l = pre ++ h :: post ∧ (∀ b ∈ pre, ¬ P b) ∧ P h := by
  intro l
  induction l with
  | nil => left; simp
  | cons a l ih =>
    by_cases ha : P a
    · right; exact ⟨[], a, l, rfl, by simp, ha⟩
    · rcases ih with h | ⟨pre, h, post, rfl, hpre, hh⟩
      · left
        intro b hb
        rcases List.mem_cons.mp hb with rfl | hb
        · exact ha
        · exact h b hb
      · right
        refine ⟨a :: pre, h, post, rfl, ?_, hh⟩
        intro b hb
        rcases List.mem_cons.mp hb with rfl | hb
        · exact ha
        · exact hpre b hb

/-! ## Preservation of validity -/

theorem Inv.ne_base {h0 : Nat} {s : State} {fl live : List Nat} (hI : Inv h0 s fl live)
    {b : Nat} (hb : b ∈ fl ++ live) : b ≠ BASE := by
  have h1 := (hI.bounds b hb).1
  have h2 := hI.h0_gt
  have hB : BASE = 1 := rfl
  omega

theorem Inv.base_nodup {h0 : Nat} {s : State} {fl live : List Nat} (hI : Inv h0 s fl live) :
    (BASE :: fl).Nodup := by
  refine List.nodup_cons.mpr ⟨fun h => hI.ne_base (List.mem_append_left _ h) rfl, ?_⟩
  exact (List.nodup_append.mp hI.nodup).1

theorem Seg_retarget (s t : State) (l : List Nat) (q c : Nat) :
    ∀ p, (p :: l).Nodup → Seg s p l q → (t.mem (lastFrom p l)).next = c →
      (∀ x ∈ p :: l, x ≠ lastFrom p l → (t.mem x).next = (s.mem x).next) → Seg t p l c := by
  induction l with
  | nil => intro p _ _ hl _; simpa [Seg, lastFrom] using hl
  | cons a l ih =>
    intro p hnd hs hl hfr
    have hne : p ≠ lastFrom a l := by
      intro h
      have := lastFrom_mem l a
      rw [← h] at this
      exact (List.nodup_cons.mp hnd).1 this
    simp only [Seg, lastFrom] at hs hl hfr ⊢
    refine ⟨?_, ih a (List.nodup_cons.mp hnd).2 hs.2 hl ?_⟩
    · rw [hfr p (by simp) hne]; exact hs.1
    · intro x hx hxl
      exact hfr x (List.mem_cons_of_mem _ hx) hxl

theorem Seg_swap (s t : State) (post : List Nat) (h r q : Nat) (hs : Seg s h post q)
    (hr : (t.mem r).next = (s.mem h).next)
    (hfr : ∀ x ∈ post, (t.mem x).next = (s.mem x).next) : Seg t r post q := by
  cases post with
  | nil => simp only [Seg] at hs ⊢; rw [hr]; exact hs
  | cons c post =>
    simp only [Seg] at hs ⊢
    exact ⟨by rw [hr]; exact hs.1, Seg_frame s t post q c hfr hs.2⟩

theorem Seg_join (s t : State) (pre post : List Nat) (p h q : Nat) (hs : Seg s h post q)
    (hp : Seg t p pre (s.mem h).next)
    (hfr : ∀ x ∈ post, (t.mem x).next = (s.mem x).next) : Seg t p (pre ++ post) q := by
  cases post with
  | nil => simp only [Seg] at hs; rw [hs] at hp; simpa using hp
  | cons c post =>
    simp only [Seg] at hs
    rw [hs.1] at hp
    exact (Seg_append t pre c post q p).mpr ⟨hp, Seg_frame s t post q c hfr hs.2⟩

theorem perm_mid (pre : List Nat) (x : Nat) (post live : List Nat) :
    (pre ++ x :: post ++ live).Perm (x :: (pre ++ post ++ live)) := by
  have h : pre ++ x :: post ++ live = pre ++ x :: (post ++ live) := by simp
  have h2 : pre ++ post ++ live = pre ++ (post ++ live) := by simp
  rw [h, h2]
  exact List.perm_middle

theorem nodup_split (p : Nat) (pre : List Nat) (h : Nat) (post : List Nat)
    (hnd : (p :: (pre ++ h :: post)).Nodup) :
    (p :: pre).Nodup ∧ h ∉ p :: pre ∧ ∀ x ∈ post, x ∉ p :: pre ∧ x ≠ h := by
  have h1 : (p :: pre ++ h :: post).Nodup := by simpa using hnd
  rw [List.nodup_append] at h1
  obtain ⟨ha, hb, hc⟩ := h1
  refine ⟨ha, fun hm => hc hm (by simp), fun x hx => ⟨fun hm => hc hm (by simp [hx]), ?_⟩⟩
  rintro rfl
  exact (List.nodup_cons.mp hb).1 hx

theorem inv_exact {h0 : Nat} {s : State} {pre : List Nat} {h : Nat} {post live : List Nat}
    (hI : Inv h0 s (pre ++ h :: post) live) :
    Inv h0 ((s.setNext (lastFrom BASE pre) (s.mem h).next).setNext h NULL)
      (pre ++ post) (h :: live) := by
  obtain ⟨hnd1, hh, hpost⟩ := nodup_split BASE pre h post hI.base_nodup
  have hseg := (Seg_append s pre h post BASE BASE).mp hI.seg
  have hlast : lastFrom BASE pre ≠ h := fun e => hh (e ▸ lastFrom_mem pre BASE)
  have hperm : (pre ++ post ++ h :: live).Perm (pre ++ h :: post ++ live) := by
    have h1 : (pre ++ post ++ h :: live).Perm (h :: (pre ++ post ++ live)) := List.perm_middle
    have h2 : (pre ++ h :: post ++ live).Perm (h :: (pre ++ post ++ live)) :=
      perm_mid pre h post live
    exact h1.trans h2.symm
  have hmem : ∀ x, x ∈ pre ++ post ++ h :: live ↔ x ∈ pre ++ h :: post ++ live :=
    fun x => hperm.mem_iff
  refine ⟨by simp [hI.fl_init], by simpa using hI.base_size, ?_, hI.h0_gt, hI.brk_ge,
    hI.brk_lt, hperm.nodup_iff.mpr hI.nodup, ?_, ?_⟩
  · refine Seg_join s _ pre post BASE h BASE hseg.2 ?_ ?_
    · refine Seg_retarget s _ pre h _ BASE hnd1 hseg.1 ?_ ?_
      · simp [hlast]
      · intro x hx hxl
        have : x ≠ h := fun e => hh (e ▸ hx)
        simp [this, hxl]
    · intro x hx
      have h1 := (hpost x hx).1
      have h2 : x ≠ lastFrom BASE pre := fun e => h1 (e ▸ lastFrom_mem pre BASE)
      simp [(hpost x hx).2, h2]
  · intro b hb
    simpa using hI.bounds b ((hmem b).mp hb)
  · intro a ha b hb hab
    simpa using hI.disj a ((hmem a).mp ha) b ((hmem b).mp hb) hab

theorem Inv.sep {h0 : Nat} {s : State} {fl live : List Nat} (hI : Inv h0 s fl live)
    {a b : Nat} (ha : a ∈ fl ++ live) (hb : b ∈ fl ++ live) :
    a = b ∨ a + 1 + (s.mem a).size ≤ b ∨ b + 1 + (s.mem b).size ≤ a := by
  by_cases hab : a = b
  · exact Or.inl hab
  · exact Or.inr (hI.disj a ha b hb hab)

theorem inv_split {h0 : Nat} {s : State} {pre : List Nat} {h : Nat} {post live : List Nat}
    (n : Nat) (hI : Inv h0 s (pre ++ h :: post) live) (hn : n < (s.mem h).size) :
    Inv h0 ((((s.setSize (h + 1 + n) ((s.mem h).size - 1 - n)).setNext (h + 1 + n)
        (s.mem h).next).setNext (lastFrom BASE pre) (h + 1 + n)).setSize h n)
      (pre ++ (h + 1 + n) :: post) (h :: live) := by
  obtain ⟨hnd1, hh, hpost⟩ := nodup_split BASE pre h post hI.base_nodup
  have hseg := (Seg_append s pre h post BASE BASE).mp hI.seg
  have hhm : h ∈ pre ++ h :: post ++ live := by simp
  have hrold : ∀ x ∈ pre ++ h :: post ++ live, x ≠ h + 1 + n := by
    intro x hx e
    have := hI.sep hx hhm
    omega
  have hbh := hI.bounds h hhm
  have h0gt := hI.h0_gt
  have hB : BASE = 1 := rfl
  have hrbase : BASE ≠ h + 1 + n := by omega
  have hprer : ∀ x ∈ BASE :: pre, x ≠ h + 1 + n := by
    intro x hx
    rcases List.mem_cons.mp hx with rfl | hx
    · exact hrbase
    · exact hrold x (by simp [hx])
  have hlast : lastFrom BASE pre ≠ h + 1 + n := hprer _ (lastFrom_mem pre BASE)
  have hperm : (pre ++ (h + 1 + n) :: post ++ h :: live).Perm
      ((h + 1 + n) :: (pre ++ h :: post ++ live)) := by
    have h1 : (pre ++ (h + 1 + n) :: post ++ h :: live).Perm
        ((h + 1 + n) :: (pre ++ post ++ h :: live)) :=
      perm_mid pre ((h + 1 + n)) post (h :: live)
    have h2 : (pre ++ post ++ h :: live).Perm (h :: (pre ++ post ++ live)) := List.perm_middle
    have h3 : (pre ++ h :: post ++ live).Perm (h :: (pre ++ post ++ live)) :=
      perm_mid pre h post live
    exact h1.trans ((h2.trans h3.symm).cons _)
  have hmem : ∀ x, x ∈ pre ++ (h + 1 + n) :: post ++ h :: live →
      x = h + 1 + n ∨ x ∈ pre ++ h :: post ++ live := by
    intro x hx
    exact List.mem_cons.mp (hperm.mem_iff.mp hx)
  have hfacts : ∀ x, x ∈ pre ++ (h + 1 + n) :: post ++ h :: live →
      x = h + 1 + n ∨ (x ≠ h + 1 + n ∧ h0 ≤ x ∧ x + 1 + (s.mem x).size ≤ s.brk ∧
        (x = h ∨ x + 1 + (s.mem x).size ≤ h ∨ h + 1 + (s.mem h).size ≤ x)) := by
    intro x hx
    rcases hmem x hx with e | hx
    · exact Or.inl e
    · exact Or.inr ⟨hrold x hx, (hI.bounds x hx).1, (hI.bounds x hx).2, hI.sep hx hhm⟩
  refine ⟨by simp [hI.fl_init], ?_, ?_, hI.h0_gt, hI.brk_ge, hI.brk_lt, ?_, ?_, ?_⟩
  · have : BASE ≠ h := by omega
    simp [this, hrbase, hI.base_size]
  · refine (Seg_append _ pre (h + 1 + n) post BASE BASE).mpr ⟨?_, ?_⟩
    · refine Seg_retarget s _ pre h _ BASE hnd1 hseg.1 (by simp) ?_
      intro x hx hxl
      simp [hxl, hprer x hx]
    · refine Seg_swap s _ post h _ BASE hseg.2 (by simp [hlast.symm]) ?_
      intro x hx
      have h1 := (hpost x hx).1
      have h2 : x ≠ lastFrom BASE pre := fun e => h1 (e ▸ lastFrom_mem pre BASE)
      have h3 : x ≠ h + 1 + n := hrold x (by simp [hx])
      simp [h2, h3]
  · refine hperm.nodup_iff.mpr (List.nodup_cons.mpr ⟨fun hm => hrold _ hm rfl, hI.nodup⟩)
  · intro b hb
    have fb := hfacts b hb
    simp only [setSize_size, setNext_size, setSize_brk, setNext_brk]
    split_ifs <;> omega
  · intro a ha b hb hab
    have fa := hfacts a ha
    have fb := hfacts b hb
    have fab : a ≠ h + 1 + n → b ≠ h + 1 + n →
        a + 1 + (s.mem a).size ≤ b ∨ b + 1 + (s.mem b).size ≤ a := by
      intro h1 h2
      have ha' := (hmem a ha).resolve_left h1
      have hb' := (hmem b hb).resolve_left h2
      exact hI.disj a ha' b hb' hab
    simp only [setSize_size, setNext_size]
    split_ifs <;> omega

theorem heapIncr_units (hs n : Nat) (hhs : 0 < hs) (h1 : 1 ≤ n) (h2 : n + 1 < UINT) :
    heapIncr hs n / hs = 1 + n := by
  unfold heapIncr
  split_ifs with h
  · have : n = 1 := by omega
    subst this
    exact Nat.mul_div_cancel_left 2 hhs
  · rw [Nat.mod_eq_of_lt (by omega), Nat.mul_div_cancel _ hhs]

theorem increase_heap_bump (hs n : Nat) (s : State) (hhs : 0 < hs) (h1 : 1 ≤ n)
    (h2 : n + 1 < UINT) :
    increase_heap (sbrkBump hs) hs n s =
      (s.brk, (({ s with brk := s.brk + (1 + n) } : State).setSize s.brk n).setNext s.brk NULL) := by
  simp only [increase_heap, sbrkBump, heapIncr_units hs n hhs h1 h2]

theorem inv_grow {h0 : Nat} {s : State} {fl live : List Nat} (n : Nat)
    (hI : Inv h0 s fl live) (hb : s.brk + (1 + n) < h0 + UINT) :
    Inv h0 ((({ s with brk := s.brk + (1 + n) } : State).setSize s.brk n).setNext s.brk NULL)
      fl (s.brk :: live) := by
  have hB : BASE = 1 := rfl
  have h0gt := hI.h0_gt
  have hge := hI.brk_ge
  have hperm : (fl ++ s.brk :: live).Perm (s.brk :: (fl ++ live)) := List.perm_middle
  have hold : ∀ x ∈ fl ++ live, x ≠ s.brk := by
    intro x hx e
    have := (hI.bounds x hx).2
    omega
  have hfacts : ∀ x, x ∈ fl ++ s.brk :: live →
      x = s.brk ∨ (x ≠ s.brk ∧ h0 ≤ x ∧ x + 1 + (s.mem x).size ≤ s.brk) := by
    intro x hx
    rcases List.mem_cons.mp (hperm.mem_iff.mp hx) with e | hx
    · exact Or.inl e
    · exact Or.inr ⟨hold x hx, hI.bounds x hx⟩
  refine ⟨by simp [hI.fl_init], ?_, ?_, hI.h0_gt, ?_, ?_, ?_, ?_, ?_⟩
  · have : BASE ≠ s.brk := by omega
    simp [this, hI.base_size]
  · refine Seg_frame s _ fl BASE BASE ?_ hI.seg
    intro x hx
    have : x ≠ s.brk := by
      rcases List.mem_cons.mp hx with rfl | hx
      · omega
      · exact hold x (List.mem_append_left _ hx)
    simp [this]
  · simp only [setNext_brk, setSize_brk]; omega
  · simp only [setNext_brk, setSize_brk]; omega
  · exact hperm.nodup_iff.mpr (List.nodup_cons.mpr ⟨fun hm => hold _ hm rfl, hI.nodup⟩)
  · intro b hb
    have fb := hfacts b hb
    simp only [setSize_size, setNext_size, setSize_brk, setNext_brk]
    split_ifs <;> omega
  · intro a ha b hb hab
    have fa := hfacts a ha
    have fb := hfacts b hb
    have fab : a ≠ s.brk → b ≠ s.brk →
        a + 1 + (s.mem a).size ≤ b ∨ b + 1 + (s.mem b).size ≤ a := by
      intro h1 h2
      have ha' := (List.mem_cons.mp (hperm.mem_iff.mp ha)).resolve_left h1
      have hb' := (List.mem_cons.mp (hperm.mem_iff.mp hb)).resolve_left h2
      exact hI.disj a ha' b hb' hab
    simp only [setSize_size, setNext_size]
    split_ifs <;> omega

theorem mem_erase_blocks {fl live : List Nat} (hnd : (fl ++ live).Nodup) {f x : Nat}
    (hf : f ∈ live) (hx : x ∈ fl ++ live.erase f) : x ∈ fl ++ live ∧ x ≠ f := by
  rw [List.nodup_append] at hnd
  rcases List.mem_append.mp hx with h | h
  · exact ⟨List.mem_append_left _ h, fun e => hnd.2.2 h (e ▸ hf)⟩
  · have := (List.Nodup.mem_erase_iff hnd.2.1).mp h
    exact ⟨List.mem_append_right _ this.2, this.1⟩

theorem inv_left {h0 : Nat} {s : State} {fl live : List Nat} {f b : Nat}
    (hI : Inv h0 s fl live) (hf : f ∈ live) (hb : b ∈ fl)
    (hadj : b + 1 + (s.mem b).size = f) :
    Inv h0 (s.setSize b (((s.mem b).size + (s.mem f).size) % UINT)) fl (live.erase f) := by
  have hB : BASE = 1 := rfl
  have hU : UINT = 4294967296 := rfl
  have hfm : f ∈ fl ++ live := List.mem_append_right _ hf
  have hbm : b ∈ fl ++ live := List.mem_append_left _ hb
  have hbf := hI.bounds f hfm
  have hbb := hI.bounds b hbm
  have hlt := hI.brk_lt
  have h0gt := hI.h0_gt
  have hmod : ((s.mem b).size + (s.mem f).size) % UINT = (s.mem b).size + (s.mem f).size :=
    Nat.mod_eq_of_lt (by omega)
  rw [hmod]
  have hfacts : ∀ x, x ∈ fl ++ live.erase f →
      x ≠ f ∧ h0 ≤ x ∧ x + 1 + (s.mem x).size ≤ s.brk ∧
        (x = b ∨ x + 1 + (s.mem x).size ≤ b ∨ b + 1 + (s.mem b).size ≤ x) ∧
        (x + 1 + (s.mem x).size ≤ f ∨ f + 1 + (s.mem f).size ≤ x) := by
    intro x hx
    obtain ⟨hx1, hx2⟩ := mem_erase_blocks hI.nodup hf hx
    exact ⟨hx2, (hI.bounds x hx1).1, (hI.bounds x hx1).2, hI.sep hx1 hbm,
      hI.disj x hx1 f hfm hx2⟩
  refine ⟨by simp [hI.fl_init], ?_, ?_, hI.h0_gt, hI.brk_ge, hI.brk_lt, ?_, ?_, ?_⟩
  · have : BASE ≠ b := by omega
    simp [this, hI.base_size]
  · exact Seg_frame s _ fl BASE BASE (fun x _ => by simp) hI.seg
  · exact hI.nodup.sublist ((List.erase_sublist f live).append_left fl)
  · intro x hx
    have fx := hfacts x hx
    simp only [setSize_size, setSize_brk]
    split_ifs <;> omega
  · intro x hx y hy hxy
    have fx := hfacts x hx
    have fy := hfacts y hy
    have fxy := hI.disj x (mem_erase_blocks hI.nodup hf hx).1 y
      (mem_erase_blocks hI.nodup hf hy).1 hxy
    simp only [setSize_size]
    split_ifs <;> omega

theorem inv_right {h0 : Nat} {s : State} {pre : List Nat} {b : Nat} {post live : List Nat}
    {f : Nat} (hI : Inv h0 s (pre ++ b :: post) live) (hf : f ∈ live)
    (hadj : f + 1 + (s.mem f).size = b) :
    Inv h0 (((s.setSize f (((s.mem f).size + ((s.mem b).size + 1) % UINT) % UINT)).setNext f
        (s.mem b).next).setNext (lastFrom BASE pre) f)
      (pre ++ f :: post) (live.erase f) := by
  have hB : BASE = 1 := rfl
  have hU : UINT = 4294967296 := rfl
  obtain ⟨hnd1, hh, hpost⟩ := nodup_split BASE pre b post hI.base_nodup
  have hseg := (Seg_append s pre b post BASE BASE).mp hI.seg
  have hfm : f ∈ pre ++ b :: post ++ live := List.mem_append_right _ hf
  have hbm : b ∈ pre ++ b :: post ++ live := by simp
  have hbf := hI.bounds f hfm
  have hbb := hI.bounds b hbm
  have hlt := hI.brk_lt
  have h0gt := hI.h0_gt
  have hmod1 : ((s.mem b).size + 1) % UINT = (s.mem b).size + 1 :=
    Nat.mod_eq_of_lt (by omega)
  have hmod : ((s.mem f).size + ((s.mem b).size + 1)) % UINT =
      (s.mem f).size + ((s.mem b).size + 1) := Nat.mod_eq_of_lt (by omega)
  rw [hmod1, hmod]
  have hnd := hI.nodup
  have hffl : ∀ x ∈ BASE :: (pre ++ b :: post), x ≠ f := by
    intro x hx e
    rcases List.mem_cons.mp hx with rfl | hx
    · omega
    · exact (List.nodup_append.mp hnd).2.2 hx (e ▸ hf)
  have hlast : lastFrom BASE pre ≠ f := by
    have := lastFrom_mem pre BASE
    refine hffl _ ?_
    rcases List.mem_cons.mp this with e | hm
    · rw [e]; simp
    · exact List.mem_cons_of_mem _ (List.mem_append_left _ hm)
  have hperm : (pre ++ f :: post ++ live.erase f).Perm (pre ++ post ++ live) := by
    have h1 : (pre ++ f :: post ++ live.erase f).Perm (f :: (pre ++ post ++ live.erase f)) :=
      perm_mid pre f post (live.erase f)
    have h2 : (pre ++ post ++ live).Perm (pre ++ post ++ f :: live.erase f) :=
      (List.perm_cons_erase hf).append_left _
    have h3 : (pre ++ post ++ f :: live.erase f).Perm (f :: (pre ++ post ++ live.erase f)) :=
      List.perm_middle
    exact h1.trans (h3.symm.trans h2.symm)
  have hsub : (pre ++ post ++ live).Sublist (pre ++ b :: post ++ live) := by
    have : (pre ++ post).Sublist (pre ++ b :: post) :=
      (List.sublist_cons_self b post).append_left pre
    exact this.append_right live
  have hmem : ∀ x, x ∈ pre ++ f :: post ++ live.erase f →
      x ∈ pre ++ b :: post ++ live ∧ x ≠ b := by
    intro x hx
    have hx1 : x ∈ pre ++ post ++ live := hperm.mem_iff.mp hx
    refine ⟨hsub.subset hx1, ?_⟩
    rintro rfl
    have h4 : (pre ++ x :: post ++ live).Perm (x :: (pre ++ post ++ live)) :=
      perm_mid pre x post live
    exact (List.nodup_cons.mp (h4.nodup_iff.mp hnd)).1 hx1
  have hfacts : ∀ x, x ∈ pre ++ f :: post ++ live.erase f →
      x ≠ b ∧ h0 ≤ x ∧ x + 1 + (s.mem x).size ≤ s.brk ∧
        (x = f ∨ x + 1 + (s.mem x).size ≤ f ∨ f + 1 + (s.mem f).size ≤ x) ∧
        (x + 1 + (s.mem x).size ≤ b ∨ b + 1 + (s.mem b).size ≤ x) := by
    intro x hx
    obtain ⟨hx1, hx2⟩ := hmem x hx
    exact ⟨hx2, (hI.bounds x hx1).1, (hI.bounds x hx1).2, hI.sep hx1 hfm,
      hI.disj x hx1 b hbm hx2⟩
  refine ⟨by simp [hI.fl_init], ?_, ?_, hI.h0_gt, hI.brk_ge, hI.brk_lt, ?_, ?_, ?_⟩
  · have : BASE ≠ f := by omega
    simp [this, hI.base_size]
  · refine (Seg_append _ pre f post BASE BASE).mpr ⟨?_, ?_⟩
    · refine Seg_retarget s _ pre b _ BASE hnd1 hseg.1 (by simp) ?_
      intro x hx hxl
      have : x ≠ f := by
        refine hffl x ?_
        rcases List.mem_cons.mp hx with e | hm
        · rw [e]; simp
        · exact List.mem_cons_of_mem _ (List.mem_append_left _ hm)
      simp [hxl, this]
    · refine Seg_swap s _ post b _ BASE hseg.2 (by simp [hlast.symm]) ?_
      intro x hx
      have h1 := (hpost x hx).1
      have h2 : x ≠ lastFrom BASE pre := fun e => h1 (e ▸ lastFrom_mem pre BASE)
      have h3 : x ≠ f := hffl x (by simp [hx])
      simp [h2, h3]
  · exact hperm.nodup_iff.mpr (hnd.sublist hsub)
  · intro x hx
    have fx := hfacts x hx
    simp only [setSize_size, setNext_size, setSize_brk, setNext_brk]
    split_ifs <;> omega
  · intro x hx y hy hxy
    have fx := hfacts x hx
    have fy := hfacts y hy
    have fxy := hI.disj x (hmem x hx).1 y (hmem y hy).1 hxy
    simp only [setSize_size, setNext_size]
    split_ifs <;> omega

theorem inv_append {h0 : Nat} {s : State} {fl live : List Nat} {f : Nat}
    (hI : Inv h0 s fl live) (hf : f ∈ live) :
    Inv h0 ((s.setNext (lastFrom BASE fl) f).setNext f BASE) (fl ++ [f]) (live.erase f) := by
  have hB : BASE = 1 := rfl
  have hfm : f ∈ fl ++ live := List.mem_append_right _ hf
  have hbf := hI.bounds f hfm
  have h0gt := hI.h0_gt
  have hnd := hI.nodup
  have hffl : ∀ x ∈ BASE :: fl, x ≠ f := by
    intro x hx e
    rcases List.mem_cons.mp hx with rfl | hx
    · omega
    · exact (List.nodup_append.mp hnd).2.2 hx (e ▸ hf)
  have hlast : lastFrom BASE fl ≠ f := hffl _ (lastFrom_mem fl BASE)
  have hperm : (fl ++ [f] ++ live.erase f).Perm (fl ++ live) := by
    have : (fl ++ [f] ++ live.erase f) = fl ++ f :: live.erase f := by simp
    rw [this]
    exact (List.perm_cons_erase hf).symm.append_left _
  have hmem : ∀ x, x ∈ fl ++ [f] ++ live.erase f ↔ x ∈ fl ++ live := fun x => hperm.mem_iff
  refine ⟨by simp [hI.fl_init], by simpa using hI.base_size, ?_, hI.h0_gt, hI.brk_ge,
    hI.brk_lt, hperm.nodup_iff.mpr hnd, ?_, ?_⟩
  · refine (Seg_append _ fl f [] BASE BASE).mpr ⟨?_, by simp [Seg]⟩
    refine Seg_retarget s _ fl BASE _ BASE hI.base_nodup hI.seg (by simp [hlast]) ?_
    intro x hx hxl
    simp [hxl, hffl x hx]
  · intro b hb
    simpa using hI.bounds b ((hmem b).mp hb)
  · intro a ha b hb hab
    simpa using hI.disj a ((hmem a).mp ha) b ((hmem b).mp hb) hab

/-! ## What the two functions compute on a valid state -/

theorem firstCall_init (sbrk : Sbrk) (hs n : Nat) (s : State) (h : s.free_list = BASE) :
    firstCall sbrk hs n s = s := by
  unfold firstCall
  rw [if_neg (by rw [h]; decide)]

theorem nunitsOf_pos (hs bytes : Nat) : 1 ≤ nunitsOf hs bytes := by
  unfold nunitsOf
  dsimp only
  split_ifs <;> omega

theorem memory_alloc_init (sbrk : Sbrk) (hs bytes fuel : Nat) (s : State)
    (h : s.free_list = BASE) :
    memory_alloc sbrk hs bytes fuel s =
      match allocLoop (nunitsOf hs bytes) fuel BASE (s.mem BASE).next s with
      | none => none
      | some (some p, s) => some (p, s)
      | some (none, s) =>
        some ((increase_heap sbrk hs (nunitsOf hs bytes) s).1 + 1,
          (increase_heap sbrk hs (nunitsOf hs bytes) s).2) := by
  simp only [memory_alloc, firstCall_init _ _ _ _ h]

theorem loop_nofit {h0 : Nat} {s : State} {fl live : List Nat} (n fuel : Nat)
    (hI : Inv h0 s fl live) (hno : ∀ b ∈ fl, (s.mem b).size < n) :
    allocLoop n fuel BASE (s.mem BASE).next s =
      if fuel ≤ fl.length then none else some (none, s) := by
  rw [allocLoop_skip _ s BASE fl BASE fuel hI.seg
    (fun b hb => ⟨hI.ne_base (List.mem_append_left _ hb), hno b hb⟩)]
  by_cases hf : fuel ≤ fl.length
  · simp [hf]
  · obtain ⟨k, hk⟩ : ∃ k, fuel - fl.length = k + 1 := ⟨fuel - fl.length - 1, by omega⟩
    simp only [hf, if_false, hk, allocLoop, if_true]

theorem loop_exact {h0 : Nat} {s : State} {pre : List Nat} {h : Nat} {post live : List Nat}
    (n fuel : Nat) (hI : Inv h0 s (pre ++ h :: post) live)
    (hno : ∀ b ∈ pre, (s.mem b).size < n) (hfit : (s.mem h).size = n) :
    allocLoop n fuel BASE (s.mem BASE).next s =
      if fuel ≤ pre.length then none else
        some (some (h + 1), (s.setNext (lastFrom BASE pre) (s.mem h).next).setNext h NULL) := by
  have hseg := (Seg_append s pre h post BASE BASE).mp hI.seg
  have hhb : h ≠ BASE := hI.ne_base (by simp)
  rw [allocLoop_skip _ s h pre BASE fuel hseg.1
    (fun b hb => ⟨hI.ne_base (by simp [hb]), hno b hb⟩)]
  by_cases hf : fuel ≤ pre.length
  · simp [hf]
  · obtain ⟨k, hk⟩ : ∃ k, fuel - pre.length = k + 1 := ⟨fuel - pre.length - 1, by omega⟩
    simp only [hf, if_false, hk, allocLoop, if_neg hhb, hfit, le_refl, if_true]

theorem loop_split {h0 : Nat} {s : State} {pre : List Nat} {h : Nat} {post live : List Nat}
    (n fuel : Nat) (hI : Inv h0 s (pre ++ h :: post) live)
    (hno : ∀ b ∈ pre, (s.mem b).size < n) (hfit : n < (s.mem h).size) :
    allocLoop n fuel BASE (s.mem BASE).next s =
      if fuel ≤ pre.length then none else
        some (some (h + 1), (((s.setSize (h + 1 + n) ((s.mem h).size - 1 - n)).setNext
          (h + 1 + n) (s.mem h).next).setNext (lastFrom BASE pre) (h + 1 + n)).setSize h n) := by
  have hseg := (Seg_append s pre h post BASE BASE).mp hI.seg
  have hhb : h ≠ BASE := hI.ne_base (by simp)
  rw [allocLoop_skip _ s h pre BASE fuel hseg.1
    (fun b hb => ⟨hI.ne_base (by simp [hb]), hno b hb⟩)]
  by_cases hf : fuel ≤ pre.length
  · simp [hf]
  · obtain ⟨k, hk⟩ : ∃ k, fuel - pre.length = k + 1 := ⟨fuel - pre.length - 1, by omega⟩
    simp only [hf, if_false, hk, allocLoop, if_neg hhb, if_pos (le_of_lt hfit),
      if_neg (ne_of_lt hfit), setSize_next]

theorem alloc_nofit_any {h0 : Nat} {s : State} {fl live : List Nat} (sbrk : Sbrk)
    (hs bytes fuel : Nat) (hI : Inv h0 s fl live)
    (hno : ∀ b ∈ fl, (s.mem b).size < nunitsOf hs bytes) :
    memory_alloc sbrk hs bytes fuel s =
      if fuel ≤ fl.length then none else
        some ((increase_heap sbrk hs (nunitsOf hs bytes) s).1 + 1,
          (increase_heap sbrk hs (nunitsOf hs bytes) s).2) := by
  rw [memory_alloc_init _ _ _ _ _ hI.fl_init, loop_nofit _ fuel hI hno]
  by_cases hf : fuel ≤ fl.length <;> simp [hf]

theorem alloc_nofit {h0 : Nat} {s : State} {fl live : List Nat} (hs bytes fuel : Nat)
    (hI : Inv h0 s fl live) (hhs : 0 < hs) (hn : nunitsOf hs bytes + 1 < UINT)
    (hno : ∀ b ∈ fl, (s.mem b).size < nunitsOf hs bytes) :
    memory_alloc (sbrkBump hs) hs bytes fuel s =
      if fuel ≤ fl.length then none else
        some (s.brk + 1, (({ s with brk := s.brk + (1 + nunitsOf hs bytes) } : State).setSize
          s.brk (nunitsOf hs bytes)).setNext s.brk NULL) := by
  rw [alloc_nofit_any _ hs bytes fuel hI hno,
    increase_heap_bump hs _ s hhs (nunitsOf_pos hs bytes) hn]

theorem alloc_exact {h0 : Nat} {s : State} {pre : List Nat} {h : Nat} {post live : List Nat}
    (sbrk : Sbrk) (hs bytes fuel : Nat) (hI : Inv h0 s (pre ++ h :: post) live)
    (hno : ∀ b ∈ pre, (s.mem b).size < nunitsOf hs bytes)
    (hfit : (s.mem h).size = nunitsOf hs bytes) :
    memory_alloc sbrk hs bytes fuel s =
      if fuel ≤ pre.length then none else
        some (h + 1, (s.setNext (lastFrom BASE pre) (s.mem h).next).setNext h NULL) := by
  rw [memory_alloc_init _ _ _ _ _ hI.fl_init, loop_exact _ fuel hI hno hfit]
  by_cases hf : fuel ≤ pre.length <;> simp [hf]

theorem alloc_split {h0 : Nat} {s : State} {pre : List Nat} {h : Nat} {post live : List Nat}
    (sbrk : Sbrk) (hs bytes fuel : Nat) (hI : Inv h0 s (pre ++ h :: post) live)
    (hno : ∀ b ∈ pre, (s.mem b).size < nunitsOf hs bytes)
    (hfit : nunitsOf hs bytes < (s.mem h).size) :
    memory_alloc sbrk hs bytes fuel s =
      if fuel ≤ pre.length then none else
        some (h + 1, (((s.setSize (h + 1 + nunitsOf hs bytes)
          ((s.mem h).size - 1 - nunitsOf hs bytes)).setNext (h + 1 + nunitsOf hs bytes)
            (s.mem h).next).setNext (lastFrom BASE pre) (h + 1 + nunitsOf hs bytes)).setSize h
              (nunitsOf hs bytes)) := by
  rw [memory_alloc_init _ _ _ _ _ hI.fl_init, loop_split _ fuel hI hno hfit]
  by_cases hf : fuel ≤ pre.length <;> simp [hf]

theorem free_append {h0 : Nat} {s : State} {fl live : List Nat} (f fuel : Nat)
    (hI : Inv h0 s fl live)
    (hno : ∀ b ∈ fl, b + 1 + (s.mem b).size ≠ f ∧ f + 1 + (s.mem f).size ≠ b) :
    memory_free (f + 1) fuel s =
      if fuel ≤ fl.length then none else
        some ((s.setNext (lastFrom BASE fl) f).setNext f BASE) := by
  unfold memory_free
  simp only [Nat.add_sub_cancel]
  rw [freeLoop_skip f s BASE fl BASE fuel hI.seg
    (fun b hb => ⟨hI.ne_base (List.mem_append_left _ hb), hno b hb⟩)]
  by_cases hf : fuel ≤ fl.length
  · simp [hf]
  · obtain ⟨k, hk⟩ : ∃ k, fuel - fl.length = k + 1 := ⟨fuel - fl.length - 1, by omega⟩
    simp only [hf, if_false, hk, freeLoop, if_true]

theorem free_left {h0 : Nat} {s : State} {pre : List Nat} {b : Nat} {post live : List Nat}
    (f fuel : Nat) (hI : Inv h0 s (pre ++ b :: post) live)
    (hno : ∀ x ∈ pre, x + 1 + (s.mem x).size ≠ f ∧ f + 1 + (s.mem f).size ≠ x)
    (hadj : b + 1 + (s.mem b).size = f) :
    memory_free (f + 1) fuel s =
      if fuel ≤ pre.length then none else
        some (s.setSize b (((s.mem b).size + (s.mem f).size) % UINT)) := by
  have hseg := (Seg_append s pre b post BASE BASE).mp hI.seg
  have hbb : b ≠ BASE := hI.ne_base (by simp)
  unfold memory_free
  simp only [Nat.add_sub_cancel]
  rw [freeLoop_skip f s b pre BASE fuel hseg.1
    (fun x hx => ⟨hI.ne_base (by simp [hx]), hno x hx⟩)]
  by_cases hf : fuel ≤ pre.length
  · simp [hf]
  · obtain ⟨k, hk⟩ : ∃ k, fuel - pre.length = k + 1 := ⟨fuel - pre.length - 1, by omega⟩
    simp only [hf, if_false, hk, freeLoop, if_neg hbb, hadj, if_true]

theorem free_right {h0 : Nat} {s : State} {pre : List Nat} {b : Nat} {post live : List Nat}
    (f fuel : Nat) (hI : Inv h0 s (pre ++ b :: post) live)
    (hno : ∀ x ∈ pre, x + 1 + (s.mem x).size ≠ f ∧ f + 1 + (s.mem f).size ≠ x)
    (hnl : b + 1 + (s.mem b).size ≠ f) (hadj : f + 1 + (s.mem f).size = b) :
    memory_free (f + 1) fuel s =
      if fuel ≤ pre.length then none else
        some (((s.setSize f (((s.mem f).size + ((s.mem b).size + 1) % UINT) % UINT)).setNext f
          (s.mem b).next).setNext (lastFrom BASE pre) f) := by
  have hseg := (Seg_append s pre b post BASE BASE).mp hI.seg
  have hbb : b ≠ BASE := hI.ne_base (by simp)
  unfold memory_free
  simp only [Nat.add_sub_cancel]
  rw [freeLoop_skip f s b pre BASE fuel hseg.1
    (fun x hx => ⟨hI.ne_base (by simp [hx]), hno x hx⟩)]
  by_cases hf : fuel ≤ pre.length
  · simp [hf]
  · obtain ⟨k, hk⟩ : ∃ k, fuel - pre.length = k + 1 := ⟨fuel - pre.length - 1, by omega⟩
    simp only [hf, if_false, hk, freeLoop, if_neg hbb, if_neg hnl, hadj, if_true, setSize_next]

theorem alloc_first (hs bytes : Nat) (s : State) (hnull : s.free_list = NULL)
    (hbrk : BASE < s.brk) (hhs : 0 < hs) (hn : nunitsOf hs bytes + 1 < UINT) :
    ∃ s', (∀ fuel, memory_alloc (sbrkBump hs) hs bytes fuel s =
        if fuel ≤ 0 then none else some (s.brk + 1, s')) ∧
      Inv s.brk s' [] [s.brk] ∧ s'.brk = s.brk + (1 + nunitsOf hs bytes) ∧
      (s'.mem s.brk).size = nunitsOf hs bytes := by
  have hB : BASE = 1 := rfl
  have hne : s.brk ≠ BASE := by omega
  have hne' : BASE ≠ s.brk := by omega
  have hU : UINT = 4294967296 := rfl
  refine ⟨(((((((({ s with brk := s.brk + (1 + nunitsOf hs bytes) } : State).setSize s.brk
    (nunitsOf hs bytes)).setNext s.brk NULL).setNext s.brk BASE).setSize BASE 0).setNext
      BASE s.brk).setFreeList BASE).setNext BASE BASE).setNext s.brk NULL,
    ?_, ?_, rfl, ?_⟩
  · intro fuel
    cases fuel with
    | zero => simp [memory_alloc, allocLoop]
    | succ k =>
      simp only [memory_alloc, firstCall, hnull, if_true,
        increase_heap_bump hs _ s hhs (nunitsOf_pos hs bytes) hn]
      simp [allocLoop, hne, hne']
  · refine ⟨rfl, by simp [hne'], by simp [Seg, hne'], hbrk, ?_, ?_, by simp, ?_, ?_⟩
    · simp only [setNext_brk, setSize_brk, setFreeList_brk]; omega
    · simp only [setNext_brk, setSize_brk, setFreeList_brk]; omega
    · intro b hb
      have : b = s.brk := by simpa using hb
      subst this
      simp only [setNext_size, setSize_size, setFreeList_mem, setNext_brk, setSize_brk,
        setFreeList_brk, if_neg hne, if_true]
      omega
    · intro a ha b hb hab
      have h1 : a = s.brk := by simpa using ha
      have h2 : b = s.brk := by simpa using hb
      exact absurd (h1.trans h2.symm) hab
  · simp [hne]

/-- One `memory_alloc` on a valid state: it returns once the fuel exceeds the number of
blocks walked, the result is valid, and the returned header carries the requested size. When
some free block is large enough the loop itself returns and the cursor does not move. -/
theorem alloc_step {h0 : Nat} {s : State} {fl live : List Nat} (hs bytes : Nat)
    (hI : Inv h0 s fl live) (hhs : 0 < hs) (hn : nunitsOf hs bytes + 1 < UINT) :
    ∃ h s' fl' k, k ≤ fl.length ∧
      (∀ fuel, memory_alloc (sbrkBump hs) hs bytes fuel s =
        if fuel ≤ k then none else some (h + 1, s')) ∧
      (s'.brk < h0 + UINT → Inv h0 s' fl' (h :: live)) ∧
      (s'.mem h).size = nunitsOf hs bytes ∧
      fl'.length ≤ fl.length ∧
      s'.brk ≤ s.brk + (1 + nunitsOf hs bytes) ∧
      ((∃ b ∈ fl, nunitsOf hs bytes ≤ (s.mem b).size) → s'.brk = s.brk ∧
        ∀ fuel, allocLoop (nunitsOf hs bytes) fuel BASE (s.mem BASE).next s =
          if fuel ≤ k then none else some (some (h + 1), s')) := by
  rcases first_split (fun b => nunitsOf hs bytes ≤ (s.mem b).size) fl with hno | hyes
  · have hno' : ∀ b ∈ fl, (s.mem b).size < nunitsOf hs bytes := fun b hb => by
      have := hno b hb; omega
    refine ⟨s.brk, _, fl, fl.length, le_refl _,
      fun fuel => alloc_nofit hs bytes fuel hI hhs hn hno', ?_, by simp, le_refl _,
      by simp, ?_⟩
    · intro hb
      exact inv_grow (nunitsOf hs bytes) hI (by simpa using hb)
    · rintro ⟨b, hb, hle⟩
      exact absurd hle (hno b hb)
  · obtain ⟨pre, h, post, rfl, hpre, hh⟩ := hyes
    have hpre' : ∀ b ∈ pre, (s.mem b).size < nunitsOf hs bytes := fun b hb => by
      have := hpre b hb; omega
    have hlen : pre.length ≤ (pre ++ h :: post).length := by simp
    rcases Nat.eq_or_lt_of_le hh with heq | hlt
    · refine ⟨h, _, pre ++ post, pre.length, hlen,
        fun fuel => alloc_exact _ hs bytes fuel hI hpre' heq.symm, fun _ => inv_exact hI,
        by simpa using heq.symm, by simp, by simp,
        fun _ => ⟨by simp, fun fuel => loop_exact _ fuel hI hpre' heq.symm⟩⟩
    · refine ⟨h, _, pre ++ (h + 1 + nunitsOf hs bytes) :: post, pre.length, hlen,
        fun fuel => alloc_split _ hs bytes fuel hI hpre' hlt,
        fun _ => inv_split _ hI hlt, by simp, by simp, by simp,
        fun _ => ⟨by simp, fun fuel => loop_split _ fuel hI hpre' hlt⟩⟩

theorem left_mod {h0 : Nat} {s : State} {fl live : List Nat} {f b : Nat}
    (hI : Inv h0 s fl live) (hf : f ∈ live) (hb : b ∈ fl)
    (hadj : b + 1 + (s.mem b).size = f) :
    ((s.mem b).size + (s.mem f).size) % UINT = (s.mem b).size + (s.mem f).size := by
  have hU : UINT = 4294967296 := rfl
  have hbf := hI.bounds f (List.mem_append_right _ hf)
  have hbb := hI.bounds b (List.mem_append_left _ hb)
  have hlt := hI.brk_lt
  exact Nat.mod_eq_of_lt (by omega)

theorem right_mod {h0 : Nat} {s : State} {fl live : List Nat} {f b : Nat}
    (hI : Inv h0 s fl live) (hf : f ∈ live) (hb : b ∈ fl)
    (hadj : f + 1 + (s.mem f).size = b) :
    ((s.mem f).size + ((s.mem b).size + 1) % UINT) % UINT =
      (s.mem f).size + (s.mem b).size + 1 := by
  have hU : UINT = 4294967296 := rfl
  have hbf := hI.bounds f (List.mem_append_right _ hf)
  have hbb := hI.bounds b (List.mem_append_left _ hb)
  have hlt := hI.brk_lt
  rw [Nat.mod_eq_of_lt (a := (s.mem b).size + 1) (by omega), Nat.mod_eq_of_lt (by omega)]
  omega

/-- One `memory_free` of a live block on a valid state: it returns once the fuel exceeds the
number of blocks walked, the result is valid, the cursor does not move, and some free-list
block is at least as large as the released one. -/
theorem free_step {h0 : Nat} {s : State} {fl live : List Nat} (f : Nat)
    (hI : Inv h0 s fl live) (hf : f ∈ live) :
    ∃ s' fl' k, k ≤ fl.length ∧
      (∀ fuel, memory_free (f + 1) fuel s = if fuel ≤ k then none else some s') ∧
      Inv h0 s' fl' (live.erase f) ∧ s'.brk = s.brk ∧ fl'.length ≤ fl.length + 1 ∧
      ∃ b ∈ fl', (s.mem f).size ≤ (s'.mem b).size := by
  rcases first_split
    (fun b => b + 1 + (s.mem b).size = f ∨ f + 1 + (s.mem f).size = b) fl with hno | hyes
  · have hno' : ∀ b ∈ fl, b + 1 + (s.mem b).size ≠ f ∧ f + 1 + (s.mem f).size ≠ b :=
      fun b hb => not_or.mp (hno b hb)
    refine ⟨_, fl ++ [f], fl.length, le_refl _, fun fuel => free_append f fuel hI hno',
      inv_append hI hf, by simp, by simp, f, by simp, by simp⟩
  · obtain ⟨pre, b, post, rfl, hpre, hb⟩ := hyes
    have hpre' : ∀ x ∈ pre, x + 1 + (s.mem x).size ≠ f ∧ f + 1 + (s.mem f).size ≠ x :=
      fun x hx => not_or.mp (hpre x hx)
    have hlen : pre.length ≤ (pre ++ b :: post).length := by simp
    have hbm : b ∈ pre ++ b :: post := by simp
    by_cases hl : b + 1 + (s.mem b).size = f
    · refine ⟨_, pre ++ b :: post, pre.length, hlen,
        fun fuel => free_left f fuel hI hpre' hl, inv_left hI hf hbm hl, by simp, by simp,
        b, hbm, ?_⟩
      rw [left_mod hI hf hbm hl]
      simp
    · have hr : f + 1 + (s.mem f).size = b := hb.resolve_left hl
      refine ⟨_, pre ++ f :: post, pre.length, hlen,
        fun fuel => free_right f fuel hI hpre' hl hr, inv_right hI hf hr, by simp, by simp,
        f, by simp, ?_⟩
      rw [right_mod hI hf hbm hr]
      simp
      omega

/-! ## The growth cursor never moves back -/

theorem allocLoop_brk (n : Nat) : ∀ (fuel prev block : Nat) (s : State) (r : Option Nat)
    (s' : State), allocLoop n fuel prev block s = some (r, s') → s'.brk = s.brk := by
  intro fuel
  induction fuel with
  | zero => intro prev block s r s' h; simp [allocLoop] at h
  | succ k ih =>
    intro prev block s r s' h
    rw [allocLoop] at h
    split_ifs at h
    · simp only [Option.some.injEq, Prod.mk.injEq] at h; rw [← h.2]
    · simp only [Option.some.injEq, Prod.mk.injEq] at h; rw [← h.2]; simp
    · simp only [Option.some.injEq, Prod.mk.injEq] at h; rw [← h.2]; simp
    · exact ih _ _ _ _ _ h

theorem freeLoop_brk (f : Nat) : ∀ (fuel prev block : Nat) (s s' : State),
    freeLoop f fuel prev block s = some s' → s'.brk = s.brk := by
  intro fuel
  induction fuel with
  | zero => intro prev block s s' h; simp [freeLoop] at h
  | succ k ih =>
    intro prev block s s' h
    rw [freeLoop] at h
    split_ifs at h
    · simp only [Option.some.injEq] at h; rw [← h]; simp
    · simp only [Option.some.injEq] at h; rw [← h]; simp
    · simp only [Option.some.injEq] at h; rw [← h]; simp
    · exact ih _ _ _ _ h

theorem increase_heap_brk (hs n : Nat) (s : State) :
    s.brk ≤ (increase_heap (sbrkBump hs) hs n s).2.brk := by
  simp [increase_heap, sbrkBump]

theorem firstCall_brk (hs n : Nat) (s : State) :
    s.brk ≤ (firstCall (sbrkBump hs) hs n s).brk := by
  unfold firstCall
  split_ifs
  · simpa using increase_heap_brk hs n s
  · exact le_refl _

theorem memory_alloc_brk (hs bytes fuel : Nat) (s : State) (p : Nat) (s' : State)
    (h : memory_alloc (sbrkBump hs) hs bytes fuel s = some (p, s')) : s.brk ≤ s'.brk := by
  simp only [memory_alloc] at h
  have h1 := firstCall_brk hs (nunitsOf hs bytes) s
  generalize firstCall (sbrkBump hs) hs (nunitsOf hs bytes) s = s1 at h h1
  cases hl : allocLoop (nunitsOf hs bytes) fuel BASE (s1.mem BASE).next s1 with
  | none => simp [hl] at h
  | some r =>
    obtain ⟨r, s2⟩ := r
    have h2 := allocLoop_brk _ _ _ _ _ _ _ hl
    cases r with
    | none =>
      simp only [hl, Option.some.injEq, Prod.mk.injEq] at h
      have h3 := increase_heap_brk hs (nunitsOf hs bytes) s2
      rw [← h.2]
      omega
    | some q =>
      simp only [hl, Option.some.injEq, Prod.mk.injEq] at h
      rw [← h.2]
      omega

theorem memory_free_brk (ptr fuel : Nat) (s s' : State)
    (h : memory_free ptr fuel s = some s') : s'.brk = s.brk :=
  freeLoop_brk _ _ _ _ _ _ h

theorem step_brk (hs fuel : Nat) (c c' : State × List Nat) (op : Op)
    (h : step hs fuel c op = some c') : c.1.brk ≤ c'.1.brk := by
  cases op with
  | alloc bytes =>
    simp only [step] at h
    cases hm : memory_alloc (sbrkBump hs) hs bytes fuel c.1 with
    | none => simp [hm] at h
    | some r =>
      obtain ⟨p, s'⟩ := r
      simp only [hm, Option.some.injEq] at h
      rw [← h]
      exact memory_alloc_brk _ _ _ _ _ _ hm
  | free ptr =>
    simp only [step] at h
    split_ifs at h
    cases hm : memory_free ptr fuel c.1 with
    | none => simp [hm] at h
    | some s' =>
      simp only [hm, Option.some.injEq] at h
      rw [← h]
      exact le_of_eq (memory_free_brk _ _ _ _ hm).symm

theorem run_brk (hs fuel : Nat) : ∀ (ops : List Op) (c c' : State × List Nat),
    run hs fuel ops c = some c' → c.1.brk ≤ c'.1.brk := by
  intro ops
  induction ops with
  | nil => intro c c' h; simp only [run, Option.some.injEq] at h; rw [h]
  | cons op ops ih =>
    intro c c' h
    simp only [run] at h
    cases hs1 : step hs fuel c op with
    | none => simp [hs1] at h
    | some c1 =>
      simp only [hs1] at h
      exact le_trans (step_brk _ _ _ _ _ hs1) (ih _ _ h)

/-! ## Validity along a sequence of calls -/

theorem succ_inj : Function.Injective (fun x : Nat => x + 1) := fun _ _ h => Nat.succ.inj h

theorem step_valid (hs h0 fuel : Nat) (c c' : State × List Nat) (op : Op)
    (hV : Valid h0 c.1 c.2) (hhs : 0 < hs)
    (hop : ∀ b, op = Op.alloc b → nunitsOf hs b + 1 < UINT)
    (h : step hs fuel c op = some c') (hb : c'.1.brk < h0 + UINT) : Valid h0 c'.1 c'.2 := by
  obtain ⟨s, live⟩ := c
  cases op with
  | alloc bytes =>
    have hn := hop bytes rfl
    simp only [step] at h
    rcases hV with ⟨hinit, hlive, h0gt⟩ | ⟨fl, hd, hlive, hI⟩
    · simp only at hinit hlive
      subst hinit
      obtain ⟨s1, hm, hI1, _, _⟩ := alloc_first hs bytes (initState h0) rfl h0gt hhs hn
      rw [hm fuel] at h
      split_ifs at h
      simp only [Option.some.injEq] at h
      subst h
      right
      exact ⟨[], [h0], by simp [hlive, initState], hI1⟩
    · obtain ⟨x, s1, fl', k, _, hm, hI1, _⟩ := alloc_step hs bytes hI hhs hn
      simp only at hlive
      rw [hm fuel] at h
      split_ifs at h
      simp only [Option.some.injEq] at h
      subst h
      right
      exact ⟨fl', x :: hd, by simp [hlive], hI1 hb⟩
  | free ptr =>
    simp only [step] at h
    split_ifs at h with hmem
    rcases hV with ⟨_, hlive, _⟩ | ⟨fl, hd, hlive, hI⟩
    · simp only at hlive
      rw [hlive] at hmem
      simp at hmem
    · simp only at hlive
      rw [hlive] at hmem
      obtain ⟨f, hf, rfl⟩ := List.mem_map.mp hmem
      obtain ⟨s1, fl', k, _, hm, hI1, _, _, _⟩ := free_step f hI hf
      rw [hm fuel] at h
      split_ifs at h
      simp only [Option.some.injEq] at h
      subst h
      right
      refine ⟨fl', hd.erase f, ?_, hI1⟩
      simp only
      rw [hlive]
      exact (List.map_erase succ_inj hd).symm

theorem run_valid (hs h0 fuel : Nat) (hhs : 0 < hs) : ∀ (ops : List Op) (c c' : State × List Nat),
    Valid h0 c.1 c.2 → (∀ b, Op.alloc b ∈ ops → nunitsOf hs b + 1 < UINT) →
    run hs fuel ops c = some c' → c'.1.brk < h0 + UINT → Valid h0 c'.1 c'.2 := by
  intro ops
  induction ops with
  | nil =>
    intro c c' hV _ h _
    simp only [run, Option.some.injEq] at h
    rw [← h]; exact hV
  | cons op ops ih =>
    intro c c' hV hops h hb
    simp only [run] at h
    cases hs1 : step hs fuel c op with
    | none => simp [hs1] at h
    | some c1 =>
      simp only [hs1] at h
      have hb1 : c1.1.brk < h0 + UINT := lt_of_le_of_lt (run_brk _ _ _ _ _ h) hb
      have hV1 := step_valid hs h0 fuel c c1 op hV hhs
        (fun b e => hops b (by rw [e]; simp)) hs1 hb1
      exact ih c1 c' hV1 (fun b hm => hops b (List.mem_cons_of_mem _ hm)) h hb

theorem reachable_valid {hs h0 : Nat} {s : State} {live : List Nat}
    (h : Reachable hs h0 s live) : Valid h0 s live := by
  obtain ⟨hhs, h0gt, ops, fuel, hops, hrun, hb⟩ := h
  refine run_valid hs h0 fuel hhs ops (initState h0, []) (s, live)
    (Or.inl ⟨rfl, rfl, h0gt⟩) ?_ hrun hb
  intro b hm
  simpa [Op.small] using hops _ hm

theorem nunitsOf_units (hs n : Nat) (hhs : 0 < hs) (h1 : 1 ≤ n) (h2 : n < UINT) :
    nunitsOf hs (n * hs) = n := by
  unfold nunitsOf NUNITS
  rw [Nat.mul_div_cancel _ hhs, Nat.mod_eq_of_lt h2]
  simp only
  rw [if_neg (by omega)]

theorem Seg_unique (s : State) (q : Nat) : ∀ (l l' : List Nat) (p : Nat),
    Seg s p l q → Seg s p l' q → q ∉ l → q ∉ l' → l = l' := by
  intro l
  induction l with
  | nil =>
    intro l' p h1 h2 _ hq'
    cases l' with
    | nil => rfl
    | cons b l' =>
      simp only [Seg] at h1 h2
      exact absurd (by rw [← h2.1, h1]; simp) hq'
  | cons a l ih =>
    intro l' p h1 h2 hq hq'
    cases l' with
    | nil =>
      simp only [Seg] at h1 h2
      exact absurd (by rw [← h1.1, h2]; simp) hq
    | cons b l' =>
      simp only [Seg] at h1 h2
      have hab : a = b := by rw [← h1.1, h2.1]
      subst hab
      rw [ih l' a h1.2 h2.2 (fun h => hq (List.mem_cons_of_mem _ h))
        (fun h => hq' (List.mem_cons_of_mem _ h))]

theorem Inv.base_not_mem {h0 : Nat} {s : State} {fl live : List Nat} (hI : Inv h0 s fl live) :
    BASE ∉ fl := fun h => hI.ne_base (List.mem_append_left _ h) rfl

theorem Inv.fl_unique {h0 : Nat} {s : State} {fl live : List Nat} (hI : Inv h0 s fl live)
    {l : List Nat} (hs : Seg s BASE l BASE) (hb : BASE ∉ l) : l = fl :=
  Seg_unique s BASE l fl BASE hs hI.seg hb hI.base_not_mem

/-- A `memory_alloc` on a valid configuration inside the no-wrap range: the call returns for
every fuel above `N`, and the state it leaves is valid with the new block live. -/
theorem alloc_valid {hs h0 : Nat} {s : State} {live : List Nat} (bytes : Nat)
    (hV : Valid h0 s live) (hhs : 0 < hs)
    (hb : s.brk + (1 + nunitsOf hs bytes) < h0 + UINT) :
    ∃ h s1 fl1 hd N, live = hd.map (· + 1) ∧
      (∀ fuel, N < fuel → memory_alloc (sbrkBump hs) hs bytes fuel s = some (h + 1, s1)) ∧
      Inv h0 s1 fl1 (h :: hd) ∧ (s1.mem h).size = nunitsOf hs bytes ∧ fl1.length ≤ N ∧
      s.brk ≤ s1.brk := by
  have hU : UINT = 4294967296 := rfl
  rcases hV with ⟨hinit, hlive, h0gt⟩ | ⟨fl, hd, hlive, hI⟩
  · subst hinit
    have hn : nunitsOf hs bytes + 1 < UINT := by
      have : (initState h0).brk = h0 := rfl
      omega
    obtain ⟨s1, hm, hI1, hbrk, hsz⟩ := alloc_first hs bytes (initState h0) rfl h0gt hhs hn
    refine ⟨h0, s1, [], [], 0, by simp [hlive], ?_, hI1, hsz, le_refl _, ?_⟩
    · intro fuel hf
      rw [hm fuel, if_neg (by omega)]
      rfl
    · rw [hbrk]; omega
  · have hge := hI.brk_ge
    have hn : nunitsOf hs bytes + 1 < UINT := by omega
    obtain ⟨h, s1, fl1, k, hk, hm, hI1, hsz, hlen, hbrk, _⟩ := alloc_step hs bytes hI hhs hn
    have hI1' := hI1 (by omega)
    refine ⟨h, s1, fl1, hd, fl.length, hlive, ?_, hI1', hsz, hlen, ?_⟩
    · intro fuel hf
      rw [hm fuel, if_neg (by omega)]
    · have := memory_alloc_brk hs bytes (fl.length + 1) s (h + 1) s1
        (by rw [hm, if_neg (by omega)])
      exact this

/-! ## Termination of the walks and size of the returned block -/

theorem allocLoop_total (n : Nat) (s : State) : ∀ (l : List Nat) (prev fuel : Nat),
    Seg s prev l BASE → BASE ∉ l → l.length < fuel →
    ∃ r s', allocLoop n fuel prev (s.mem prev).next s = some (r, s') ∧
      ∀ p, r = some p → p ≠ BASE + 1 := by
  intro l
  induction l with
  | nil =>
    intro prev fuel hs _ hf
    obtain ⟨k, rfl⟩ : ∃ k, fuel = k + 1 := ⟨fuel - 1, by simp at hf; omega⟩
    simp only [Seg] at hs
    exact ⟨none, s, by simp [allocLoop, hs], by simp⟩
  | cons a l ih =>
    intro prev fuel hs hb hf
    obtain ⟨k, rfl⟩ : ∃ k, fuel = k + 1 := ⟨fuel - 1, by simp at hf; omega⟩
    simp only [Seg] at hs
    have ha : a ≠ BASE := fun e => hb (by simp [e])
    rw [hs.1, allocLoop, if_neg ha]
    split_ifs
    · exact ⟨_, _, rfl, fun p hp => by rw [← Option.some.inj hp]; omega⟩
    · exact ⟨_, _, rfl, fun p hp => by rw [← Option.some.inj hp]; omega⟩
    · exact ih a k hs.2 (fun h => hb (List.mem_cons_of_mem _ h))
        (by simp at hf; omega)

theorem freeLoop_total (f : Nat) (s : State) : ∀ (l : List Nat) (prev fuel : Nat),
    Seg s prev l BASE → BASE ∉ l → l.length < fuel →
    ∃ s', freeLoop f fuel prev (s.mem prev).next s = some s' := by
  intro l
  induction l with
  | nil =>
    intro prev fuel hs _ hf
    obtain ⟨k, rfl⟩ : ∃ k, fuel = k + 1 := ⟨fuel - 1, by simp at hf; omega⟩
    simp only [Seg] at hs
    exact ⟨(s.setNext prev f).setNext f BASE, by simp [freeLoop, hs]⟩
  | cons a l ih =>
    intro prev fuel hs hb hf
    obtain ⟨k, rfl⟩ : ∃ k, fuel = k + 1 := ⟨fuel - 1, by simp at hf; omega⟩
    simp only [Seg] at hs
    have ha : a ≠ BASE := fun e => hb (by simp [e])
    rw [hs.1, freeLoop, if_neg ha]
    split_ifs
    · exact ⟨_, rfl⟩
    · exact ⟨_, rfl⟩
    · exact ih a k hs.2 (fun h => hb (List.mem_cons_of_mem _ h))
        (by simp at hf; omega)

theorem allocLoop_size (n : Nat) : ∀ (fuel prev block : Nat) (s : State) (p : Nat)
    (s' : State), allocLoop n fuel prev block s = some (some p, s') →
      (s'.mem (p - 1)).size = n := by
  intro fuel
  induction fuel with
  | zero => intro prev block s p s' h; simp [allocLoop] at h
  | succ k ih =>
    intro prev block s p s' h
    rw [allocLoop] at h
    split_ifs at h with h1 h2 h3
    · simp at h
    · simp only [Option.some.injEq, Prod.mk.injEq] at h
      rw [← h.2, ← h.1]
      simp [h3]
    · simp only [Option.some.injEq, Prod.mk.injEq] at h
      rw [← h.2, ← h.1]
      simp
    · exact ih _ _ _ _ _ h

theorem increase_heap_size (sbrk : Sbrk) (hs n : Nat) (s : State) :
    ((increase_heap sbrk hs n s).2.mem (increase_heap sbrk hs n s).1).size = n := by
  simp [increase_heap]

/-- Whatever the state and the growth primitive, the header in front of the pointer that
`memory_alloc` returns carries the unit count of the call. -/
theorem memory_alloc_size (sbrk : Sbrk) (hs bytes fuel : Nat) (s : State) (p : Nat)
    (s' : State) (h : memory_alloc sbrk hs bytes fuel s = some (p, s')) :
    (s'.mem (p - 1)).size = nunitsOf hs bytes := by
  simp only [memory_alloc] at h
  generalize firstCall sbrk hs (nunitsOf hs bytes) s = s1 at h
  cases hl : allocLoop (nunitsOf hs bytes) fuel BASE (s1.mem BASE).next s1 with
  | none => simp [hl] at h
  | some r =>
    obtain ⟨r, s2⟩ := r
    cases r with
    | none =>
      simp only [hl, Option.some.injEq, Prod.mk.injEq] at h
      rw [← h.2, ← h.1, Nat.add_sub_cancel]
      exact increase_heap_size _ _ _ _
    | some q =>
      simp only [hl, Option.some.injEq, Prod.mk.injEq] at h
      rw [← h.2, ← h.1]
      exact allocLoop_size _ _ _ _ _ _ _ hl

theorem Seg_init_false (h0 : Nat) : ∀ (l : List Nat) (p : Nat),
    ¬ Seg (initState h0) p l BASE := by
  intro l
  induction l with
  | nil => intro p h; simp [Seg, initState] at h
  | cons a l ih => intro p h; exact ih a h.2

theorem exists_of_map_fst (o : Option (Nat × State)) (a : Nat)
    (h : o.map Prod.fst = some a) : ∃ s', o = some (a, s') := by
  cases o with
  | none => simp at h
  | some r =>
    obtain ⟨p, s'⟩ := r
    simp only [Option.map_some', Option.some.injEq] at h
    exact ⟨s', by rw [h]⟩

/-- The first call on the never-used allocator returns for every positive fuel: the pointer
is the value obtained from the growth primitive plus one header. (Should the primitive
return `&base` itself, the walk ends at once and the primitive is called a second time.) -/
theorem alloc_first_total (sbrk : Sbrk) (hs bytes h0 fuel : Nat) (hf : 0 < fuel)
    (hsame : (sbrk (heapIncr hs (nunitsOf hs bytes)) h0).1 = BASE →
      (sbrk (heapIncr hs (nunitsOf hs bytes))
        (sbrk (heapIncr hs (nunitsOf hs bytes)) h0).2).1 = BASE) :
    ∃ s', memory_alloc sbrk hs bytes fuel (initState h0) =
      some ((sbrk (heapIncr hs (nunitsOf hs bytes)) h0).1 + 1, s') := by
  obtain ⟨k, rfl⟩ : ∃ k, fuel = k + 1 := ⟨fuel - 1, by omega⟩
  apply exists_of_map_fst
  by_cases hb : (sbrk (heapIncr hs (nunitsOf hs bytes)) h0).1 = BASE
  · simp [memory_alloc, firstCall, initState, increase_heap, allocLoop, hb]
    exact hsame hb
  · have hb' : ¬ BASE = (sbrk (heapIncr hs (nunitsOf hs bytes)) h0).1 := fun e => hb e.symm
    simp [memory_alloc, firstCall, initState, increase_heap, allocLoop, hb, hb']

/-- Arithmetic of the unit conversion: without truncation the unit count is
`max 1 (b / hs)`, and `max 1 (b / hs)` units hold fewer than `b` bytes exactly when `b` is
above `hs` and not a multiple of it. -/
theorem nunits_arith (hs b : Nat) :
    (b / hs < UINT → nunitsOf hs b = max 1 (b / hs)) ∧
      (0 < hs → (max 1 (b / hs) * hs < b ↔ hs < b ∧ ¬ hs ∣ b)) := by
  constructor
  · intro h
    unfold nunitsOf NUNITS
    simp only
    rw [Nat.mod_eq_of_lt h]
    generalize b / hs = q
    split_ifs with h0
    · rw [h0]; rfl
    · rw [max_eq_right (by omega)]
  · intro hhs
    have h1 := Nat.div_add_mod b hs
    have h2 := Nat.mod_lt b hhs
    rw [Nat.dvd_iff_mod_eq_zero]
    generalize b / hs = q at h1 ⊢
    generalize b % hs = r at h1 h2 ⊢
    rcases Nat.eq_zero_or_pos q with hq | hq
    · rw [hq] at h1 ⊢
      simp only [Nat.mul_zero, Nat.zero_add] at h1
      have : max 1 0 = 1 := rfl
      rw [this, Nat.one_mul]
      omega
    · rw [max_eq_right hq, Nat.mul_comm]
      have h3 : hs ≤ hs * q := Nat.le_mul_of_pos_right hs hq
      omega

/-- A configuration reached by valid calls whose `next` links form the free list `fl` is
initialised and valid with that very list. -/
theorem reach_inv {hs h0 : Nat} {s : State} {live fl : List Nat}
    (hR : Reachable hs h0 s live) (hseg : Seg s BASE fl BASE) (hnb : BASE ∉ fl) :
    ∃ hd, live = hd.map (· + 1) ∧ Inv h0 s fl hd := by
  rcases reachable_valid hR with ⟨hinit, _, _⟩ | ⟨fl1, hd, hlive, hI⟩
  · rw [hinit] at hseg
    exact absurd hseg (Seg_init_false h0 _ _)
  · have hfl := hI.fl_unique hseg hnb
    subst hfl
    exact ⟨hd, hlive, hI⟩

theorem cap_cons (s : State) (x : Nat) (l : List Nat) :
    freeCapacity s (x :: l) = (s.mem x).size + freeCapacity s l := by
  simp [freeCapacity]

theorem cap_append (s : State) (l1 l2 : List Nat) :
    freeCapacity s (l1 ++ l2) = freeCapacity s l1 + freeCapacity s l2 := by
  simp [freeCapacity]

theorem cap_congr (s t : State) (l : List Nat)
    (h : ∀ b ∈ l, (t.mem b).size = (s.mem b).size) : freeCapacity t l = freeCapacity s l := by
  induction l with
  | nil => rfl
  | cons a l ih =>
    rw [cap_cons, cap_cons, h a (by simp), ih (fun b hb => h b (List.mem_cons_of_mem _ hb))]

theorem Inv.ne_brk {h0 : Nat} {s : State} {fl live : List Nat} (hI : Inv h0 s fl live) :
    ∀ x ∈ BASE :: fl, x ≠ s.brk := by
  intro x hx
  have hB : BASE = 1 := rfl
  have h1 := hI.h0_gt
  have h2 := hI.brk_ge
  rcases List.mem_cons.mp hx with rfl | hx
  · omega
  · have := (hI.bounds x (List.mem_append_left _ hx)).2
    omega

theorem live_header {live hd : List Nat} (hlive : live = hd.map (· + 1)) {f : Nat}
    (hf : f + 1 ∈ live) : f ∈ hd := by
  rw [hlive] at hf
  obtain ⟨a, ha, e⟩ := List.mem_map.mp hf
  have : a = f := by omega
  exact this ▸ ha

theorem exists_of_map {α : Type} (o : Option (Nat × State)) (g : Nat × State → α) (a : α)
    (h : o.map g = some a) : ∃ p s', o = some (p, s') ∧ g (p, s') = a := by
  cases o with
  | none => simp at h
  | some r =>
    obtain ⟨p, s'⟩ := r
    simp only [Option.map_some', Option.some.injEq] at h
    exact ⟨p, s', rfl, h⟩

/-- The first call with the bump cursor, for any byte count: the block of `increase_heap` is
returned and the free list is left empty. -/
theorem alloc_first_empty (hs bytes h0 fuel : Nat) (h0gt : BASE < h0) (hf : 0 < fuel) :
    ∃ s', memory_alloc (sbrkBump hs) hs bytes fuel (initState h0) = some (h0 + 1, s') ∧
      (s'.mem BASE).next = BASE ∧ s'.free_list = BASE := by
  obtain ⟨k, rfl⟩ : ∃ k, fuel = k + 1 := ⟨fuel - 1, by omega⟩
  have hB : BASE = 1 := rfl
  have hb : ¬ h0 = BASE := by omega
  have hb' : ¬ BASE = h0 := by omega
  have key : (memory_alloc (sbrkBump hs) hs bytes (k + 1) (initState h0)).map
      (fun r => (r.1, (r.2.mem BASE).next, r.2.free_list)) = some (h0 + 1, BASE, BASE) := by
    simp [memory_alloc, firstCall, initState, increase_heap, sbrkBump, allocLoop, hb, hb']
  obtain ⟨p, s', h1, h2⟩ := exists_of_map _ _ _ key
  simp only [Prod.mk.injEq] at h2
  exact ⟨s', by rw [h1, h2.1], h2.2.1, h2.2.2⟩

/-! ## A growth primitive that can fail -/

theorem increase_heapF_fail (sbrk : SbrkF) (hs u : Nat) (s : State)
    (h : (sbrk (heapIncr hs u) s.brk).1 = none) : increase_heapF sbrk hs u s = none := by
  simp only [increase_heapF, h]

theorem increase_heapF_ok (sbrk : Sbrk) (hs u : Nat) (s : State) :
    increase_heapF (fun i b => (some (sbrk i b).1, (sbrk i b).2)) hs u s =
      some (increase_heap sbrk hs u s) := rfl

theorem firstCallF_init (sbrk : SbrkF) (hs n : Nat) (s : State) (h : s.free_list = BASE) :
    firstCallF sbrk hs n s = some s := by
  unfold firstCallF
  rw [if_neg (by rw [h]; decide)]

/-- With a growth primitive that never fails, `memory_allocF` is `memory_alloc`. -/
theorem memory_allocF_ok (sbrk : Sbrk) (hs bytes fuel : Nat) (s : State) :
    memory_allocF (fun i b => (some (sbrk i b).1, (sbrk i b).2)) hs bytes fuel s =
      (memory_alloc sbrk hs bytes fuel s).map (fun r => Outcome.returned r.1 r.2) := by
  have hfc : firstCallF (fun i b => (some (sbrk i b).1, (sbrk i b).2)) hs (nunitsOf hs bytes) s =
      some (firstCall sbrk hs (nunitsOf hs bytes) s) := by
    unfold firstCallF firstCall
    split_ifs
    · rw [increase_heapF_ok]
    · rfl
  simp only [memory_allocF, memory_alloc, hfc]
  generalize firstCall sbrk hs (nunitsOf hs bytes) s = s1
  cases hl : allocLoop (nunitsOf hs bytes) fuel BASE (s1.mem BASE).next s1 with
  | none => rfl
  | some r =>
    obtain ⟨r, s2⟩ := r
    cases r with
    | none => simp only [increase_heapF_ok, Option.map_some']
    | some q => rfl

/-! ## A block whose `next` is itself -/

theorem Seg_self_loop (s : State) (a q : Nat) (hn : (s.mem a).next = a) (ha : a ≠ q) :
    ∀ l : List Nat, ¬ Seg s a l q := by
  intro l
  induction l with
  | nil => intro h; exact ha (hn.symm.trans h)
  | cons b l ih =>
    intro h
    have hb : b = a := h.1.symm.trans hn
    rw [hb] at h
    exact ih h.2

theorem allocLoop_self_loop (n : Nat) (s : State) (a : Nat) (hn : (s.mem a).next = a)
    (ha : a ≠ BASE) (hsz : (s.mem a).size < n) :
    ∀ fuel prev, allocLoop n fuel prev a s = none := by
  intro fuel
  induction fuel with
  | zero => intro prev; rfl
  | succ k ih =>
    intro prev
    rw [allocLoop, if_neg ha, if_neg (by omega), hn]
    exact ih a

/-! ## Which block a `memory_alloc` returns -/

/-- A `memory_alloc` that returned on a valid configuration inside the no-wrap range: the
result is the one `alloc_valid` describes, whatever the fuel was. -/
theorem alloc_det {hs h0 : Nat} {s : State} {live : List Nat} (bytes : Nat)
    (hV : Valid h0 s live) (hhs : 0 < hs)
    (hb : s.brk + (1 + nunitsOf hs bytes) < h0 + UINT)
    {fuel p : Nat} {s1 : State}
    (ha : memory_alloc (sbrkBump hs) hs bytes fuel s = some (p, s1)) :
    ∃ h fl1 hd, live = hd.map (· + 1) ∧ p = h + 1 ∧ Inv h0 s1 fl1 (h :: hd) ∧
      (s1.mem h).size = nunitsOf hs bytes := by
  have hU : UINT = 4294967296 := rfl
  rcases hV with ⟨hinit, hlive, h0gt⟩ | ⟨fl, hd, hlive, hI⟩
  · subst hinit
    have hn : nunitsOf hs bytes + 1 < UINT := by
      have : (initState h0).brk = h0 := rfl
      omega
    obtain ⟨s', hm, hI1, hbrk, hsz⟩ := alloc_first hs bytes (initState h0) rfl h0gt hhs hn
    rw [hm fuel] at ha
    by_cases hf : fuel ≤ 0
    · rw [if_pos hf] at ha
      exact absurd ha (by simp)
    · rw [if_neg hf] at ha
      obtain ⟨hp, hs1⟩ := Prod.mk.inj (Option.some.inj ha)
      subst hs1
      exact ⟨h0, [], [], by simp [hlive], hp.symm, hI1, hsz⟩
  · have hge := hI.brk_ge
    have hn : nunitsOf hs bytes + 1 < UINT := by omega
    obtain ⟨h, s', fl1, k, hk, hm, hI1, hsz, hlen, hbrk, _⟩ := alloc_step hs bytes hI hhs hn
    rw [hm fuel] at ha
    by_cases hf : fuel ≤ k
    · rw [if_pos hf] at ha
      exact absurd ha (by simp)
    · rw [if_neg hf] at ha
      obtain ⟨hp, hs1⟩ := Prod.mk.inj (Option.some.inj ha)
      subst hs1
      exact ⟨h, fl1, hd, hlive, hp.symm, hI1 (by omega), hsz⟩

/-- A `memory_alloc` that returned hands out the first free-list block that is large
enough. -/
theorem alloc_first_block {h0 : Nat} {s : State} {pre : List Nat} {y : Nat}
    {post live : List Nat} (sbrk : Sbrk) (hs bytes fuel : Nat)
    (hI : Inv h0 s (pre ++ y :: post) live)
    (hpre : ∀ b ∈ pre, (s.mem b).size < nunitsOf hs bytes)
    (hy : nunitsOf hs bytes ≤ (s.mem y).size) {p : Nat} {s' : State}
    (ha : memory_alloc sbrk hs bytes fuel s = some (p, s')) : p = y + 1 := by
  rcases Nat.eq_or_lt_of_le hy with heq | hlt
  · rw [alloc_exact sbrk hs bytes fuel hI hpre heq.symm] at ha
    by_cases hf : fuel ≤ pre.length
    · rw [if_pos hf] at ha
      exact absurd ha (by simp)
    · rw [if_neg hf] at ha
      exact (Prod.mk.inj (Option.some.inj ha)).1.symm
  · rw [alloc_split sbrk hs bytes fuel hI hpre hlt] at ha
    by_cases hf : fuel ≤ pre.length
    · rw [if_pos hf] at ha
      exact absurd ha (by simp)
    · rw [if_neg hf] at ha
      exact (Prod.mk.inj (Option.some.inj ha)).1.symm

/-- When a block of the prefix `l1` of the free list is large enough, the block a
`memory_alloc` returns is one of `l1`. -/
theorem alloc_ret_prefix {h0 : Nat} {s : State} {l1 l2 live : List Nat} (sbrk : Sbrk)
    (hs bytes fuel : Nat) (hI : Inv h0 s (l1 ++ l2) live)
    (hz : ∃ z ∈ l1, nunitsOf hs bytes ≤ (s.mem z).size) {p : Nat} {s' : State}
    (ha : memory_alloc sbrk hs bytes fuel s = some (p, s')) : ∃ y ∈ l1, p = y + 1 := by
  rcases first_split (fun b => nunitsOf hs bytes ≤ (s.mem b).size) l1 with hno | hyes
  · obtain ⟨z, hz1, hz2⟩ := hz
    exact absurd hz2 (hno z hz1)
  · obtain ⟨a, y, c, rfl, ha1, hy⟩ := hyes
    have e : (a ++ y :: c) ++ l2 = a ++ y :: (c ++ l2) := by simp
    rw [e] at hI
    exact ⟨y, by simp, alloc_first_block sbrk hs bytes fuel hI
      (fun b hb => by have := ha1 b hb; omega) hy ha⟩

/-! ## The claims -/

/-- C1 (no-overlap invariant): after every sequence of valid calls, with the bump cursor as
growth primitive and no `unsigned int` wrap, the payload ranges `[p, p + size)` of two
distinct live pointers `p` and `q` are disjoint, `size` being read from the header in front
of the pointer. -/
theorem C1_no_overlap (hs h0 : Nat) (s : State) (live : List Nat)
    (hR : Reachable hs h0 s live) :
    ∀ p ∈ live, ∀ q ∈ live, p ≠ q →
      p + (s.mem (p - 1)).size ≤ q ∨ q + (s.mem (q - 1)).size ≤ p := by
  intro p hp q hq hpq
  rcases reachable_valid hR with ⟨_, hlive, _⟩ | ⟨fl, hd, hlive, hI⟩
  · rw [hlive] at hp; simp at hp
  · rw [hlive] at hp hq
    obtain ⟨a, ha, rfl⟩ := List.mem_map.mp hp
    obtain ⟨b, hb, rfl⟩ := List.mem_map.mp hq
    have hab : a ≠ b := fun e => hpq (by rw [e])
    have := hI.disj a (List.mem_append_right _ ha) b (List.mem_append_right _ hb) hab
    simp only [Nat.add_sub_cancel]
    omega

theorem C1_no_overlap_witness :
    Reachable 16 2 (after 16 2 3 [Op.alloc 16, Op.alloc 40]).1
        (after 16 2 3 [Op.alloc 16, Op.alloc 40]).2 ∧
      (3 + ((after 16 2 3 [Op.alloc 16, Op.alloc 40]).1.mem (3 - 1)).size ≤ 5 ∨
        5 + ((after 16 2 3 [Op.alloc 16, Op.alloc 40]).1.mem (5 - 1)).size ≤ 3) :=
  have hR : Reachable 16 2 (after 16 2 3 [Op.alloc 16, Op.alloc 40]).1
      (after 16 2 3 [Op.alloc 16, Op.alloc 40]).2 :=
    ⟨by decide, by decide, [Op.alloc 16, Op.alloc 40], 3, by decide, rfl, by decide⟩
  ⟨hR, C1_no_overlap 16 2 _ _ hR 3 (by decide) 5 (by decide) (by decide)⟩

/-- C2, as stated, fails when an `unsigned int` wraps: on the configuration reached by
`memory_alloc(16)`, `memory_free(3)` (one free block, header 2, size 1, cursor 4), take
`n = 2 ^ 32 - 1` and `m = 1`. `memory_alloc (n units)` finds no fit, `1 + n` wraps to 0 so
the cursor stays at 4, and the block at header 4 is returned (pointer 5) with size
`2 ^ 32 - 1`. `memory_free 5` merges it into block 2, whose size wraps to
`(1 + (2 ^ 32 - 1)) mod 2 ^ 32 = 0`. The following `memory_alloc (1 unit)` finds no fit and
grows the heap: the cursor moves from 4 to 6. -/
theorem C2_counterexample :
    ∃ s1 s2 s3, Reachable 16 2 (after 16 2 9 [Op.alloc 16, Op.free 3]).1
        (after 16 2 9 [Op.alloc 16, Op.free 3]).2 ∧ 1 ≤ 1 ∧ 1 ≤ UINT - 1 ∧
      memory_alloc (sbrkBump 16) 16 ((UINT - 1) * 16) 9
        (after 16 2 9 [Op.alloc 16, Op.free 3]).1 = some (5, s1) ∧
      memory_free 5 9 s1 = some s2 ∧ (s2.mem 2).size = 0 ∧ s2.brk = 4 ∧
      memory_alloc (sbrkBump 16) 16 (1 * 16) 9 s2 = some (5, s3) ∧ s3.brk = 6 :=
  ⟨_, _, _, ⟨by decide, by decide, [Op.alloc 16, Op.free 3], 9, by decide, rfl, by decide⟩,
    by decide, by decide, rfl, rfl, rfl, rfl, rfl, rfl⟩

/-- C2 as amended (round trip without growth, no `unsigned int` wrap): on every
configuration reached by valid calls in which no `unsigned int` arithmetic wraps, for unit
counts `1 ≤ m ≤ n` such that the region stays below `2 ^ 32` units when `n` units are
allocated (`brk + 1 + n < h0 + 2 ^ 32`), `p = memory_alloc (n units)`, `memory_free p`,
`memory_alloc (m units)` all return for every large enough fuel, and the last call is served
by the free-list walk (the loop itself returns the pointer) with the growth cursor
unchanged. -/
theorem C2_round_trip (hs h0 : Nat) (s : State) (live : List Nat)
    (hR : Reachable hs h0 s live) (m n : Nat) (hm : 1 ≤ m) (hmn : m ≤ n)
    (hb : s.brk + (1 + n) < h0 + UINT) :
    ∃ F, ∀ fuel, F ≤ fuel → ∃ p s1 s2 q s3,
      memory_alloc (sbrkBump hs) hs (n * hs) fuel s = some (p, s1) ∧
      memory_free p fuel s1 = some s2 ∧
      s2.free_list = BASE ∧
      allocLoop (nunitsOf hs (m * hs)) fuel BASE (s2.mem BASE).next s2 = some (some q, s3) ∧
      memory_alloc (sbrkBump hs) hs (m * hs) fuel s2 = some (q, s3) ∧
      s3.brk = s2.brk := by
  have hU : UINT = 4294967296 := rfl
  have hhs : 0 < hs := hR.1
  have hV := reachable_valid hR
  have hge : h0 ≤ s.brk := by
    rcases hV with ⟨hinit, _, _⟩ | ⟨fl, hd, _, hI⟩
    · rw [hinit]; exact le_refl _
    · exact hI.brk_ge
  have hnn : nunitsOf hs (n * hs) = n := nunitsOf_units hs n hhs (by omega) (by omega)
  have hmm : nunitsOf hs (m * hs) = m := nunitsOf_units hs m hhs hm (by omega)
  obtain ⟨h, s1, fl1, hd, N, _, ha1, hI1, hsz1, hlen1, _⟩ :=
    alloc_valid (n * hs) hV hhs (by rw [hnn]; exact hb)
  obtain ⟨s2, fl2, k2, hk2, hf2, hI2, _, hlen2, b, hb2, hsz2⟩ :=
    free_step h hI1 (List.mem_cons_self h hd)
  obtain ⟨x, s3, fl3, k3, hk3, ha3, _, _, _, _, hfit⟩ :=
    alloc_step hs (m * hs) hI2 hhs (by rw [hmm]; omega)
  obtain ⟨hbrk3, hloop⟩ := hfit ⟨b, hb2, by rw [hmm]; omega⟩
  refine ⟨N + 2, fun fuel hfuel => ⟨h + 1, s1, s2, x + 1, s3, ha1 fuel (by omega), ?_,
    hI2.fl_init, ?_, ?_, hbrk3⟩⟩
  · rw [hf2 fuel, if_neg (by omega)]
  · rw [hloop fuel, if_neg (by omega)]
  · rw [ha3 fuel, if_neg (by omega)]

theorem C2_round_trip_witness :
    Reachable 16 2 (after 16 2 3 [Op.alloc 16, Op.alloc 40]).1
        (after 16 2 3 [Op.alloc 16, Op.alloc 40]).2 ∧ 1 ≤ 2 ∧ 2 ≤ 3 ∧
      (after 16 2 3 [Op.alloc 16, Op.alloc 40]).1.brk + (1 + 3) < 2 + UINT ∧
      ∃ F, ∀ fuel, F ≤ fuel → ∃ p s1 s2 q s3,
        memory_alloc (sbrkBump 16) 16 (3 * 16) fuel
          (after 16 2 3 [Op.alloc 16, Op.alloc 40]).1 = some (p, s1) ∧
        memory_free p fuel s1 = some s2 ∧
        s2.free_list = BASE ∧
        allocLoop (nunitsOf 16 (2 * 16)) fuel BASE (s2.mem BASE).next s2 = some (some q, s3) ∧
        memory_alloc (sbrkBump 16) 16 (2 * 16) fuel s2 = some (q, s3) ∧
        s3.brk = s2.brk :=
  have hR : Reachable 16 2 (after 16 2 3 [Op.alloc 16, Op.alloc 40]).1
      (after 16 2 3 [Op.alloc 16, Op.alloc 40]).2 :=
    ⟨by decide, by decide, [Op.alloc 16, Op.alloc 40], 3, by decide, rfl, by decide⟩
  ⟨hR, by decide, by decide, by decide,
    C2_round_trip 16 2 _ _ hR 2 3 (by decide) (by decide) (by decide)⟩

/-- C3, as stated, fails in each half. Same address: on the configuration reached by
`memory_alloc(16)`, `memory_free`, a block `A = memory_alloc(2 units)` is handed out at
address 5, released (it is merged into the free block that ends at its header), and the next
`memory_alloc(2 units)` returns address 3, not 5. No growth: on the configuration reached by
`memory_alloc(2 ^ 31 units)`, `memory_free` (one free block, header 2, size `2 ^ 31`, cursor
`2 ^ 31 + 3`), take `k = 2 ^ 31 + 1`. `A = memory_alloc(k units)` is grown at header
`2 ^ 31 + 3` and moves the cursor to `2 ^ 32 + 5`; `memory_free(A)` merges it into block 2,
whose `unsigned int` size wraps to `(2 ^ 31 + 2 ^ 31 + 1) mod 2 ^ 32 = 1`; the next
`memory_alloc(k units)` finds no fit and grows the heap, the cursor moves to
`2 ^ 32 + 2 ^ 31 + 7`. -/
theorem C3_counterexample :
    (∃ s1 s2 s3, Reachable 16 2 (after 16 2 9 [Op.alloc 16, Op.free 3]).1
        (after 16 2 9 [Op.alloc 16, Op.free 3]).2 ∧
      memory_alloc (sbrkBump 16) 16 (2 * 16) 9 (after 16 2 9 [Op.alloc 16, Op.free 3]).1 =
        some (5, s1) ∧
      memory_free 5 9 s1 = some s2 ∧
      memory_alloc (sbrkBump 16) 16 (2 * 16) 9 s2 = some (3, s3)) ∧
    ∃ t1 t2 t3, Reachable 16 2 (after 16 2 9 [Op.alloc (2147483648 * 16), Op.free 3]).1
        (after 16 2 9 [Op.alloc (2147483648 * 16), Op.free 3]).2 ∧
      1 ≤ 2147483649 ∧
      (after 16 2 9 [Op.alloc (2147483648 * 16), Op.free 3]).1.brk = 2147483651 ∧
      memory_alloc (sbrkBump 16) 16 (2147483649 * 16) 9
        (after 16 2 9 [Op.alloc (2147483648 * 16), Op.free 3]).1 = some (2147483652, t1) ∧
      memory_free 2147483652 9 t1 = some t2 ∧ (t2.mem 2).size = 1 ∧
      t2.brk = 4294967301 ∧
      memory_alloc (sbrkBump 16) 16 (2147483649 * 16) 9 t2 = some (4294967302, t3) ∧
      t3.brk = 6442450951 :=
  ⟨⟨_, _, _, ⟨by decide, by decide, [Op.alloc 16, Op.free 3], 9, by decide, rfl, by decide⟩,
      rfl, rfl, rfl⟩,
    _, _, _, ⟨by decide, by decide, [Op.alloc (2147483648 * 16), Op.free 3], 9, by decide,
      by rfl, by decide⟩, by decide, rfl, rfl, rfl, rfl, rfl, rfl, rfl⟩

/-- C3 as amended (exact-fit reuse): on every configuration reached by valid calls and for
every unit count `k ≥ 1` such that the region stays below `2 ^ 32` units when `k` units are
allocated (`brk + 1 + k < h0 + 2 ^ 32`), `memory_alloc (k units)` returns for every large
enough fuel, and when it returned `A`, `memory_free A` and `B = memory_alloc (k units)` both
return and the second `memory_alloc` does not move the growth cursor. Write the free list at
the release of `A` as `pre ++ rest`, where `pre` are the blocks `memory_free` walks past
(adjacent to `A` on neither side) and the head of `rest`, if any, is the block at which it
stops (adjacent to `A`). Then `B` is the address `A` again exactly when every block of `pre`
is smaller than `k` units and the block at which the walk stops, if any, begins where the
extent of `A` ends. -/
theorem C3_exact_fit_reuse (hs h0 : Nat) (s : State) (live : List Nat)
    (hR : Reachable hs h0 s live) (k : Nat) (hk : 1 ≤ k)
    (hb : s.brk + (1 + k) < h0 + UINT)
    (fuel p : Nat) (s1 : State)
    (ha : memory_alloc (sbrkBump hs) hs (k * hs) fuel s = some (p, s1))
    (pre rest : List Nat)
    (hseg : Seg s1 BASE (pre ++ rest) BASE) (hnb : BASE ∉ pre ++ rest)
    (hpre : ∀ x ∈ pre, x + 1 + (s1.mem x).size ≠ p - 1 ∧ p + (s1.mem (p - 1)).size ≠ x)
    (hrest : ∀ x ∈ rest.head?, x + 1 + (s1.mem x).size = p - 1 ∨
      p + (s1.mem (p - 1)).size = x)
    (hfuel : (pre ++ rest).length + 1 < fuel) :
    (∃ F, ∀ f, F ≤ f →
      ∃ p' s', memory_alloc (sbrkBump hs) hs (k * hs) f s = some (p', s')) ∧
    ∃ s2 q s3, memory_free p fuel s1 = some s2 ∧
      memory_alloc (sbrkBump hs) hs (k * hs) fuel s2 = some (q, s3) ∧
      s3.brk = s2.brk ∧
      (q = p ↔ (∀ x ∈ pre, (s1.mem x).size < k) ∧
        ∀ x ∈ rest.head?, p + (s1.mem (p - 1)).size = x) := by
  have hU : UINT = 4294967296 := rfl
  have hhs : 0 < hs := hR.1
  have hV := reachable_valid hR
  have hge : h0 ≤ s.brk := by
    rcases hV with ⟨hinit, _, _⟩ | ⟨fl, hd, _, hI⟩
    · rw [hinit]; exact le_refl _
    · exact hI.brk_ge
  have hkk : nunitsOf hs (k * hs) = k := nunitsOf_units hs k hhs hk (by omega)
  have htot : ∃ F, ∀ f, F ≤ f →
      ∃ p' s', memory_alloc (sbrkBump hs) hs (k * hs) f s = some (p', s') := by
    obtain ⟨h', s', _, _, N, _, ha', _⟩ := alloc_valid (k * hs) hV hhs (by rw [hkk]; exact hb)
    exact ⟨N + 1, fun f hf => ⟨h' + 1, s', ha' f (by omega)⟩⟩
  obtain ⟨h, fl1, hd, _, hp, hI1, hsz1⟩ :=
    alloc_det (k * hs) hV hhs (by rw [hkk]; exact hb) ha
  subst hp
  rw [hkk] at hsz1
  simp only [Nat.add_sub_cancel] at hpre hrest ⊢
  have hfl := hI1.fl_unique hseg hnb
  subst hfl
  have hmemh : h ∈ h :: hd := List.mem_cons_self h hd
  have hffl : ∀ y ∈ pre ++ rest, y ≠ h := by
    intro y hy e
    exact (List.nodup_append.mp hI1.nodup).2.2 hy (e ▸ hmemh)
  obtain ⟨s2, fl2, k2, hk2, hf2, hI2, _, hlen2, b, hb2, hsz2⟩ := free_step h hI1 hmemh
  obtain ⟨x, s3, fl3, k3, hk3, ha3, _, _, _, _, hfit⟩ :=
    alloc_step hs (k * hs) hI2 hhs (by rw [hkk]; omega)
  obtain ⟨hbrk3, _⟩ := hfit ⟨b, hb2, by rw [hkk]; omega⟩
  have e2 : memory_free (h + 1) fuel s1 = some s2 := by rw [hf2 fuel, if_neg (by omega)]
  have e3 : memory_alloc (sbrkBump hs) hs (k * hs) fuel s2 = some (x + 1, s3) := by
    rw [ha3 fuel, if_neg (by omega)]
  refine ⟨htot, s2, x + 1, s3, e2, e3, hbrk3, ?_⟩
  cases rest with
  | nil =>
    simp only [List.append_nil] at hI1 hffl hfuel
    have e2' := free_append h fuel hI1 hpre
    rw [if_neg (by omega), e2] at e2'
    have hs2 := Option.some.inj e2'
    have hIA := inv_append hI1 hmemh
    rw [← hs2] at hIA
    by_cases hall : ∀ y ∈ pre, (s1.mem y).size < k
    · have hx := @alloc_first_block h0 s2 pre h [] ((h :: hd).erase h) (sbrkBump hs) hs
        (k * hs) fuel hIA (by intro y hy; rw [hs2, hkk]; simpa using hall y hy)
        (by rw [hs2, hkk]; simp [hsz1]) (x + 1) s3 e3
      exact ⟨fun _ => ⟨hall, by simp⟩, fun _ => hx⟩
    · have hex : ∃ z ∈ pre, nunitsOf hs (k * hs) ≤ (s2.mem z).size := by
        rw [hkk, hs2]
        by_contra hne
        exact hall fun y hy => by
          by_contra hlt
          exact hne ⟨y, hy, by simpa using Nat.le_of_not_lt hlt⟩
      obtain ⟨y, hy, hxy⟩ := alloc_ret_prefix (sbrkBump hs) hs (k * hs) fuel hIA hex e3
      refine ⟨fun hq => ?_, fun hq => absurd hq.1 hall⟩
      exact absurd (show y = h by omega) (hffl y hy)
  | cons c post =>
    have hcm : c ∈ pre ++ c :: post := by simp
    have hadj : c + 1 + (s1.mem c).size = h ∨ h + 1 + (s1.mem h).size = c :=
      hrest c (by simp)
    have hlen : pre.length ≤ (pre ++ c :: post).length := by simp
    have hhead : (∀ y ∈ (c :: post).head?, h + 1 + (s1.mem h).size = y) ↔
        h + 1 + (s1.mem h).size = c := by simp
    rw [hhead]
    by_cases hl : c + 1 + (s1.mem c).size = h
    · have e2' := free_left h fuel hI1 hpre hl
      rw [if_neg (by omega), e2] at e2'
      have hs2 := Option.some.inj e2'
      have hIL := inv_left hI1 hmemh hcm hl
      rw [← hs2] at hIL
      have hmod := left_mod hI1 hmemh hcm hl
      have hIL' : Inv h0 s2 ((pre ++ c :: post) ++ []) ((h :: hd).erase h) := by
        rw [List.append_nil]; exact hIL
      have hex : ∃ z ∈ pre ++ c :: post, nunitsOf hs (k * hs) ≤ (s2.mem z).size := by
        refine ⟨c, hcm, ?_⟩
        rw [hkk, hs2]
        simp only [setSize_size, if_true]
        rw [hmod]
        omega
      obtain ⟨y, hy, hxy⟩ := alloc_ret_prefix (sbrkBump hs) hs (k * hs) fuel hIL' hex e3
      refine ⟨fun hq => ?_, fun hq => ?_⟩
      · exact absurd (show y = h by omega) (hffl y hy)
      · have := hq.2
        omega
    · have hr : h + 1 + (s1.mem h).size = c := hadj.resolve_left hl
      have e2' := free_right h fuel hI1 hpre hl hr
      rw [if_neg (by omega), e2] at e2'
      have hs2 := Option.some.inj e2'
      have hIR := inv_right hI1 hmemh hr
      rw [← hs2] at hIR
      have hmod := right_mod hI1 hmemh hcm hr
      have hpreh : ∀ y ∈ pre, y ≠ h := fun y hy => hffl y (List.mem_append_left _ hy)
      by_cases hall : ∀ y ∈ pre, (s1.mem y).size < k
      · have hx := alloc_first_block (sbrkBump hs) hs (k * hs) fuel hIR
          (by intro y hy; rw [hs2, hkk]; simpa [hpreh y hy] using hall y hy)
          (by rw [hs2, hkk]; simp only [setNext_size, setSize_size, if_true]; rw [hmod]; omega)
          e3
        exact ⟨fun _ => ⟨hall, hr⟩, fun _ => hx⟩
      · have hex : ∃ z ∈ pre, nunitsOf hs (k * hs) ≤ (s2.mem z).size := by
          rw [hkk, hs2]
          by_contra hne
          exact hall fun y hy => by
            by_contra hlt
            exact hne ⟨y, hy, by simpa [hpreh y hy] using Nat.le_of_not_lt hlt⟩
        obtain ⟨y, hy, hxy⟩ := alloc_ret_prefix (sbrkBump hs) hs (k * hs) fuel hIR hex e3
        refine ⟨fun hq => ?_, fun hq => absurd hq.1 hall⟩
        exact absurd (show y = h by omega) (hffl y (List.mem_append_left _ hy))

theorem C3_exact_fit_reuse_witness :
    Reachable 16 2 (after 16 2 9 [Op.alloc 16, Op.alloc 16, Op.alloc 80, Op.free 3, Op.free 7]).1
        (after 16 2 9 [Op.alloc 16, Op.alloc 16, Op.alloc 80, Op.free 3, Op.free 7]).2 ∧
      1 ≤ 2 ∧
      (after 16 2 9 [Op.alloc 16, Op.alloc 16, Op.alloc 80, Op.free 3, Op.free 7]).1.brk +
        (1 + 2) < 2 + UINT ∧
      memory_alloc (sbrkBump 16) 16 (2 * 16) 9
          (after 16 2 9 [Op.alloc 16, Op.alloc 16, Op.alloc 80, Op.free 3, Op.free 7]).1 =
        some (7, (after 16 2 9
          [Op.alloc 16, Op.alloc 16, Op.alloc 80, Op.free 3, Op.free 7, Op.alloc 32]).1) ∧
      Seg (after 16 2 9
        [Op.alloc 16, Op.alloc 16, Op.alloc 80, Op.free 3, Op.free 7, Op.alloc 32]).1
        BASE ([2] ++ [9]) BASE ∧
      BASE ∉ ([2] : List Nat) ++ [9] ∧
      (∀ x ∈ ([2] : List Nat),
        x + 1 + ((after 16 2 9
          [Op.alloc 16, Op.alloc 16, Op.alloc 80, Op.free 3, Op.free 7, Op.alloc 32]).1.mem
            x).size ≠ 7 - 1 ∧
        7 + ((after 16 2 9
          [Op.alloc 16, Op.alloc 16, Op.alloc 80, Op.free 3, Op.free 7, Op.alloc 32]).1.mem
            (7 - 1)).size ≠ x) ∧
      (∀ x ∈ ([9] : List Nat).head?,
        x + 1 + ((after 16 2 9
          [Op.alloc 16, Op.alloc 16, Op.alloc 80, Op.free 3, Op.free 7, Op.alloc 32]).1.mem
            x).size = 7 - 1 ∨
        7 + ((after 16 2 9
          [Op.alloc 16, Op.alloc 16, Op.alloc 80, Op.free 3, Op.free 7, Op.alloc 32]).1.mem
            (7 - 1)).size = x) ∧
      (([2] : List Nat) ++ [9]).length + 1 < 9 ∧
      (∃ F, ∀ f, F ≤ f → ∃ p' s', memory_alloc (sbrkBump 16) 16 (2 * 16) f
        (after 16 2 9 [Op.alloc 16, Op.alloc 16, Op.alloc 80, Op.free 3, Op.free 7]).1 =
          some (p', s')) ∧
      ∃ s2 q s3,
        memory_free 7 9 (after 16 2 9
          [Op.alloc 16, Op.alloc 16, Op.alloc 80, Op.free 3, Op.free 7, Op.alloc 32]).1 =
            some s2 ∧
        memory_alloc (sbrkBump 16) 16 (2 * 16) 9 s2 = some (q, s3) ∧
        s3.brk = s2.brk ∧
        (q = 7 ↔ (∀ x ∈ ([2] : List Nat), ((after 16 2 9
            [Op.alloc 16, Op.alloc 16, Op.alloc 80, Op.free 3, Op.free 7, Op.alloc 32]).1.mem
              x).size < 2) ∧
          ∀ x ∈ ([9] : List Nat).head?, 7 + ((after 16 2 9
            [Op.alloc 16, Op.alloc 16, Op.alloc 80, Op.free 3, Op.free 7, Op.alloc 32]).1.mem
              (7 - 1)).size = x) :=
  have hR : Reachable 16 2
      (after 16 2 9 [Op.alloc 16, Op.alloc 16, Op.alloc 80, Op.free 3, Op.free 7]).1
      (after 16 2 9 [Op.alloc 16, Op.alloc 16, Op.alloc 80, Op.free 3, Op.free 7]).2 :=
    ⟨by decide, by decide, [Op.alloc 16, Op.alloc 16, Op.alloc 80, Op.free 3, Op.free 7], 9,
      by decide, rfl, by decide⟩
  have hseg : Seg (after 16 2 9
      [Op.alloc 16, Op.alloc 16, Op.alloc 80, Op.free 3, Op.free 7, Op.alloc 32]).1
      BASE ([2] ++ [9]) BASE := ⟨rfl, rfl, rfl⟩
  have hpre : ∀ x ∈ ([2] : List Nat),
      x + 1 + ((after 16 2 9
        [Op.alloc 16, Op.alloc 16, Op.alloc 80, Op.free 3, Op.free 7, Op.alloc 32]).1.mem
          x).size ≠ 7 - 1 ∧
      7 + ((after 16 2 9
        [Op.alloc 16, Op.alloc 16, Op.alloc 80, Op.free 3, Op.free 7, Op.alloc 32]).1.mem
          (7 - 1)).size ≠ x := by decide
  have hrest : ∀ x ∈ ([9] : List Nat).head?,
      x + 1 + ((after 16 2 9
        [Op.alloc 16, Op.alloc 16, Op.alloc 80, Op.free 3, Op.free 7, Op.alloc 32]).1.mem
          x).size = 7 - 1 ∨
      7 + ((after 16 2 9
        [Op.alloc 16, Op.alloc 16, Op.alloc 80, Op.free 3, Op.free 7, Op.alloc 32]).1.mem
          (7 - 1)).size = x :=
    fun x hx => Option.some.inj hx ▸ Or.inr rfl
  ⟨hR, by decide, by decide, rfl, hseg, by decide, hpre, hrest, by decide,
    C3_exact_fit_reuse 16 2 _ _ hR 2 (by decide) (by decide) 9 7 _ rfl [2] [9] hseg
      (by decide) hpre hrest (by decide)⟩

/-- C4 (left-adjacency coalescing) evaluated at `a = b = 1`: after `A = memory_alloc(16)`,
`B = memory_alloc(16)`, `memory_free(A)`, `memory_free(B)` the growth cursor stands at 6 and
the only free block, at header 2, has size `1 + 1 = 2`; the following request of
`1 + 1 + 1 = 3` units is not served from the free list: the cursor moves to 10 and the
returned block is the new one at header 6. -/
theorem C4_left_merge_then_growth :
    (run 16 9 [Op.alloc 16, Op.alloc 16, Op.free 3, Op.free 5] (initState 2, [])).map
        (fun c => (c.1.brk, (c.1.mem BASE).next, (c.1.mem 2).next, (c.1.mem 2).size)) =
      some (6, 2, BASE, 2) ∧
    (run 16 9 [Op.alloc 16, Op.alloc 16, Op.free 3, Op.free 5, Op.alloc (3 * 16)]
        (initState 2, [])).map (fun c => (c.1.brk, c.2)) = some (10, [7]) := by
  decide

/-- C6 (coverage after release) evaluated at the same input: after `A = memory_alloc(16)`,
`B = memory_alloc(16)`, `memory_free(A)`, `memory_free(B)` the free list is the single block
at header 2, of extent `[2, 5)`, while the released block `B` (header 4, size 1) had the
extent `[4, 6)`: its unit 5 lies in the extent of no free-list block. -/
theorem C6_released_unit_not_covered :
    Seg (after 16 2 9 [Op.alloc 16, Op.alloc 16, Op.free 3, Op.free 5]).1 BASE [2] BASE ∧
      ((after 16 2 9 [Op.alloc 16, Op.alloc 16, Op.free 3]).1.mem 4).size = 1 ∧
      (after 16 2 9 [Op.alloc 16, Op.alloc 16, Op.free 3]).2 = [5] ∧
      ∀ h ∈ [2], ¬ (h ≤ 5 ∧
        5 < h + 1 + ((after 16 2 9 [Op.alloc 16, Op.alloc 16, Op.free 3, Op.free 5]).1.mem
          h).size) := by
  refine ⟨⟨rfl, rfl⟩, rfl, rfl, ?_⟩
  decide

/-- C7 (unit conversion): the unit count of `memory_alloc(b)` is `max 1 (b / HEADER_SIZE)`
with the quotient truncated to an `unsigned int`; without truncation it is
`max 1 (b / HEADER_SIZE)`; and it is `1` for every `b < 2 * HEADER_SIZE`, `b = 0`
included. -/
theorem C7_unit_conversion (hs b : Nat) :
    nunitsOf hs b = max 1 (b / hs % UINT) ∧
      (b / hs < UINT → nunitsOf hs b = max 1 (b / hs)) ∧
      (b < 2 * hs → nunitsOf hs b = 1) ∧ nunitsOf hs 0 = 1 := by
  have hU : UINT = 4294967296 := rfl
  have key : nunitsOf hs b = max 1 (b / hs % UINT) := by
    unfold nunitsOf NUNITS
    simp only
    split_ifs with h
    · rw [h]; rfl
    · rw [max_eq_right (by omega)]
  refine ⟨key, ?_, ?_, ?_⟩
  · intro h
    rw [key, Nat.mod_eq_of_lt h]
  · intro h
    rw [key]
    rcases Nat.eq_zero_or_pos hs with h0 | hpos
    · subst h0; simp
    · have : b / hs < 2 := (Nat.div_lt_iff_lt_mul hpos).mpr h
      rw [Nat.mod_eq_of_lt (by omega)]
      omega
  · simp [nunitsOf, NUNITS]

theorem C7_unit_conversion_witness :
    nunitsOf 16 31 = max 1 (31 / 16 % UINT) ∧
      (31 / 16 < UINT → nunitsOf 16 31 = max 1 (31 / 16)) ∧
      (31 < 2 * 16 → nunitsOf 16 31 = 1) ∧ nunitsOf 16 0 = 1 :=
  C7_unit_conversion 16 31

/-- C5 (split correctness): on a configuration reached by valid calls whose free list is
`pre ++ h :: post` with every block of `pre` smaller than `k` units and the block at `h` of
size `k + j + 1`, `memory_alloc (k units)` returns `h + 1` for every fuel above the length
of `pre`, leaves size `k` in `h`, writes at `h + 1 + k` a header of size `j` whose `next`
is the old `next` of `h`, points the list predecessor of `h` to it, keeps the list circular
with the remainder in the place of `h`, and the remainder ends where the block ended. -/
theorem C5_split (hs h0 : Nat) (s : State) (live : List Nat) (hR : Reachable hs h0 s live)
    (k j : Nat) (pre : List Nat) (h : Nat) (post : List Nat) (hk : 1 ≤ k) (hkU : k < UINT)
    (hseg : Seg s BASE (pre ++ h :: post) BASE) (hnb : BASE ∉ pre ++ h :: post)
    (hpre : ∀ b ∈ pre, (s.mem b).size < k) (hsz : (s.mem h).size = k + j + 1) :
    ∀ fuel, pre.length < fuel → ∃ s',
      memory_alloc (sbrkBump hs) hs (k * hs) fuel s = some (h + 1, s') ∧
      (s'.mem h).size = k ∧
      (s'.mem (h + 1 + k)).size = j ∧
      (s'.mem (h + 1 + k)).next = (s.mem h).next ∧
      (s'.mem (lastFrom BASE pre)).next = h + 1 + k ∧
      Seg s' BASE (pre ++ (h + 1 + k) :: post) BASE ∧ BASE ∉ pre ++ (h + 1 + k) :: post ∧
      (h + 1 + k) + 1 + (s'.mem (h + 1 + k)).size = h + 1 + (s.mem h).size ∧
      s'.brk = s.brk := by
  intro fuel hfuel
  have hhs : 0 < hs := hR.1
  have hkk : nunitsOf hs (k * hs) = k := nunitsOf_units hs k hhs hk hkU
  rcases reachable_valid hR with ⟨hinit, _, _⟩ | ⟨fl, hd, _, hI⟩
  · rw [hinit] at hseg
    exact absurd hseg (Seg_init_false h0 _ _)
  · have hfl := hI.fl_unique hseg hnb
    subst hfl
    have hlt : k < (s.mem h).size := by omega
    have hI' := inv_split k hI hlt
    have ha := alloc_split (sbrkBump hs) hs (k * hs) fuel hI (by rw [hkk]; exact hpre)
      (by rw [hkk]; exact hlt)
    rw [if_neg (by omega), hkk] at ha
    obtain ⟨_, hr, _⟩ := nodup_split BASE pre (h + 1 + k) post hI'.base_nodup
    have hlast : lastFrom BASE pre ≠ h + 1 + k := fun e => hr (e ▸ lastFrom_mem pre BASE)
    have hne : h + 1 + k ≠ h := by omega
    refine ⟨_, ha, by simp, ?_, ?_, by simp, hI'.seg, hI'.base_not_mem, ?_, by simp⟩
    · simp [hne]; omega
    · simp [hlast.symm]
    · simp [hne]; omega

theorem C5_split_witness :
    Reachable 16 2 (after 16 2 9 [Op.alloc 64, Op.free 3]).1
        (after 16 2 9 [Op.alloc 64, Op.free 3]).2 ∧
      ∃ s', memory_alloc (sbrkBump 16) 16 (1 * 16) 9 (after 16 2 9 [Op.alloc 64, Op.free 3]).1 =
          some (2 + 1, s') ∧
        (s'.mem 2).size = 1 ∧
        (s'.mem (2 + 1 + 1)).size = 2 ∧
        (s'.mem (2 + 1 + 1)).next = ((after 16 2 9 [Op.alloc 64, Op.free 3]).1.mem 2).next ∧
        (s'.mem (lastFrom BASE [])).next = 2 + 1 + 1 ∧
        Seg s' BASE ([] ++ (2 + 1 + 1) :: []) BASE ∧ BASE ∉ [] ++ (2 + 1 + 1) :: [] ∧
        (2 + 1 + 1) + 1 + (s'.mem (2 + 1 + 1)).size =
          2 + 1 + ((after 16 2 9 [Op.alloc 64, Op.free 3]).1.mem 2).size ∧
        s'.brk = (after 16 2 9 [Op.alloc 64, Op.free 3]).1.brk :=
  have hR : Reachable 16 2 (after 16 2 9 [Op.alloc 64, Op.free 3]).1
      (after 16 2 9 [Op.alloc 64, Op.free 3]).2 :=
    ⟨by decide, by decide, [Op.alloc 64, Op.free 3], 9, by decide, rfl, by decide⟩
  ⟨hR, C5_split 16 2 _ _ hR 1 2 [] 2 [] (by decide) (by decide) ⟨rfl, rfl⟩ (by decide)
    (by intro b hb; cases hb) rfl 9 (by decide)⟩

/-- C8 (under-provisioning by floor division): on every configuration reached by valid
calls and for every byte count `b` whose quotient by the header width is not truncated,
`memory_alloc(b)` returns for every large enough fuel, and the capacity in bytes of the
returned block, `size * HEADER_SIZE`, is smaller than `b` exactly when `b > HEADER_SIZE` and
`b` is not a multiple of `HEADER_SIZE`. -/
theorem C8_under_provisioning (hs h0 : Nat) (s : State) (live : List Nat)
    (hR : Reachable hs h0 s live) (b : Nat) (hb : b / hs < UINT) :
    ∃ F, ∀ fuel, F ≤ fuel → ∃ p s',
      memory_alloc (sbrkBump hs) hs b fuel s = some (p, s') ∧
      ((s'.mem (p - 1)).size * hs < b ↔ hs < b ∧ ¬ hs ∣ b) := by
  have hhs : 0 < hs := hR.1
  have hB : BASE = 1 := rfl
  have hn : nunitsOf hs b = max 1 (b / hs) := (nunits_arith hs b).1 hb
  have harith : ∀ n, n = nunitsOf hs b → (n * hs < b ↔ hs < b ∧ ¬ hs ∣ b) := by
    intro n e
    rw [e, hn]
    exact (nunits_arith hs b).2 hhs
  have hret : ∃ F, ∀ fuel, F ≤ fuel → ∃ p s',
      memory_alloc (sbrkBump hs) hs b fuel s = some (p, s') := by
    rcases reachable_valid hR with ⟨hinit, _, h0gt⟩ | ⟨fl, hd, _, hI⟩
    · refine ⟨1, fun fuel hf => ?_⟩
      obtain ⟨s', h'⟩ := alloc_first_total (sbrkBump hs) hs b h0 fuel (by omega)
        (by intro e; simp only [sbrkBump] at e; omega)
      exact ⟨_, s', by rw [hinit]; exact h'⟩
    · refine ⟨fl.length + 1, fun fuel hf => ?_⟩
      obtain ⟨r, s1, hl, _⟩ := allocLoop_total (nunitsOf hs b) s fl BASE fuel hI.seg
        hI.base_not_mem (by omega)
      rw [memory_alloc_init _ _ _ _ _ hI.fl_init, hl]
      cases r with
      | none => exact ⟨_, _, rfl⟩
      | some q => exact ⟨_, _, rfl⟩
  obtain ⟨F, hF⟩ := hret
  refine ⟨F, fun fuel hf => ?_⟩
  obtain ⟨p, s', h'⟩ := hF fuel hf
  exact ⟨p, s', h', harith _ (memory_alloc_size _ _ _ _ _ _ _ h')⟩

theorem C8_under_provisioning_witness :
    Reachable 16 2 (after 16 2 9 [Op.alloc 64, Op.free 3]).1
        (after 16 2 9 [Op.alloc 64, Op.free 3]).2 ∧ 17 / 16 < UINT ∧
      ∃ F, ∀ fuel, F ≤ fuel → ∃ p s',
        memory_alloc (sbrkBump 16) 16 17 fuel (after 16 2 9 [Op.alloc 64, Op.free 3]).1 =
          some (p, s') ∧
        ((s'.mem (p - 1)).size * 16 < 17 ↔ 16 < 17 ∧ ¬ 16 ∣ 17) :=
  have hR : Reachable 16 2 (after 16 2 9 [Op.alloc 64, Op.free 3]).1
      (after 16 2 9 [Op.alloc 64, Op.free 3]).2 :=
    ⟨by decide, by decide, [Op.alloc 64, Op.free 3], 9, by decide, rfl, by decide⟩
  ⟨hR, by decide, C8_under_provisioning 16 2 _ _ hR 17 (by decide)⟩

/-- C9 (growth failure is fatal): for every state and every byte count, when the call of
the growth primitive that `memory_alloc` makes at the current cursor returns the failure
value, a call of `memory_alloc` ends in one of three ways, whatever the fuel. The walk is
still running when the fuel is used up. Or growth is needed (`free_list` is null, or the walk
ends without a fit): then the process is killed inside `increase_heap` and no pointer is
returned. Or the walk itself returns the pointer of a free-list block: then the growth
primitive is not called at all. So no pointer derived from the failure value is ever
returned. On every configuration reached by valid calls the first way is excluded for every
large enough fuel: the call ends, killed or served by the free list. -/
theorem C9_growth_failure_fatal (hs : Nat) (s : State) (sbrk : SbrkF) (bytes : Nat)
    (hfail : (sbrk (heapIncr hs (nunitsOf hs bytes)) s.brk).1 = none) :
    (∀ fuel,
      (memory_allocF sbrk hs bytes fuel s = none ∧ s.free_list ≠ NULL ∧
        allocLoop (nunitsOf hs bytes) fuel BASE (s.mem BASE).next s = none) ∨
      (memory_allocF sbrk hs bytes fuel s = some Outcome.killed ∧
        (s.free_list = NULL ∨ ∃ s',
          allocLoop (nunitsOf hs bytes) fuel BASE (s.mem BASE).next s = some (none, s'))) ∨
      (∃ p s', memory_allocF sbrk hs bytes fuel s = some (Outcome.returned p s') ∧
        s.free_list ≠ NULL ∧
        allocLoop (nunitsOf hs bytes) fuel BASE (s.mem BASE).next s = some (some p, s'))) ∧
    ∀ h0 live, Reachable hs h0 s live →
      ∃ F, ∀ fuel, F ≤ fuel → memory_allocF sbrk hs bytes fuel s ≠ none := by
  refine ⟨fun fuel => ?_, fun h0 live hR => ?_⟩
  · by_cases hnull : s.free_list = NULL
    · refine Or.inr (Or.inl ⟨?_, Or.inl hnull⟩)
      simp only [memory_allocF, firstCallF, hnull, if_true,
        increase_heapF_fail sbrk hs _ s hfail]
    · have hfc : firstCallF sbrk hs (nunitsOf hs bytes) s = some s := by
        unfold firstCallF
        rw [if_neg hnull]
      cases hl : allocLoop (nunitsOf hs bytes) fuel BASE (s.mem BASE).next s with
      | none => exact Or.inl ⟨by simp only [memory_allocF, hfc, hl], hnull, rfl⟩
      | some r =>
        obtain ⟨r1, s'⟩ := r
        cases r1 with
        | none =>
          have hbrk := allocLoop_brk _ _ _ _ _ _ _ hl
          have hf' : (sbrk (heapIncr hs (nunitsOf hs bytes)) s'.brk).1 = none := by
            rw [hbrk]; exact hfail
          exact Or.inr (Or.inl ⟨by simp only [memory_allocF, hfc, hl,
            increase_heapF_fail sbrk hs _ s' hf'], Or.inr ⟨s', rfl⟩⟩)
        | some p =>
          exact Or.inr (Or.inr ⟨p, s', by simp only [memory_allocF, hfc, hl], hnull, rfl⟩)
  · rcases reachable_valid hR with ⟨hinit, _, _⟩ | ⟨fl, hd, _, hI⟩
    · refine ⟨0, fun fuel _ => ?_⟩
      have hnull : s.free_list = NULL := by rw [hinit]; rfl
      simp only [memory_allocF, firstCallF, hnull, if_true,
        increase_heapF_fail sbrk hs _ s hfail]
      exact fun h => Option.noConfusion h
    · refine ⟨fl.length + 1, fun fuel hf => ?_⟩
      have hfc := firstCallF_init sbrk hs (nunitsOf hs bytes) s hI.fl_init
      obtain ⟨r, s', hl, _⟩ := allocLoop_total (nunitsOf hs bytes) s fl BASE fuel hI.seg
        hI.base_not_mem (by omega)
      cases r with
      | none =>
        have hbrk := allocLoop_brk _ _ _ _ _ _ _ hl
        have hf' : (sbrk (heapIncr hs (nunitsOf hs bytes)) s'.brk).1 = none := by
          rw [hbrk]; exact hfail
        simp only [memory_allocF, hfc, hl, increase_heapF_fail sbrk hs _ s' hf']
        exact fun h => Option.noConfusion h
      | some p =>
        simp only [memory_allocF, hfc, hl]
        exact fun h => Option.noConfusion h

theorem C9_growth_failure_fatal_witness :
    (sbrkFails (heapIncr 16 (nunitsOf 16 80)) (after 16 2 9 [Op.alloc 64, Op.free 3]).1.brk).1 =
        none ∧
      Reachable 16 2 (after 16 2 9 [Op.alloc 64, Op.free 3]).1
        (after 16 2 9 [Op.alloc 64, Op.free 3]).2 ∧
      memory_allocF sbrkFails 16 80 9 (after 16 2 9 [Op.alloc 64, Op.free 3]).1 =
        some Outcome.killed ∧
      (∀ fuel,
        (memory_allocF sbrkFails 16 80 fuel (after 16 2 9 [Op.alloc 64, Op.free 3]).1 = none ∧
          (after 16 2 9 [Op.alloc 64, Op.free 3]).1.free_list ≠ NULL ∧
          allocLoop (nunitsOf 16 80) fuel BASE
            ((after 16 2 9 [Op.alloc 64, Op.free 3]).1.mem BASE).next
            (after 16 2 9 [Op.alloc 64, Op.free 3]).1 = none) ∨
        (memory_allocF sbrkFails 16 80 fuel (after 16 2 9 [Op.alloc 64, Op.free 3]).1 =
            some Outcome.killed ∧
          ((after 16 2 9 [Op.alloc 64, Op.free 3]).1.free_list = NULL ∨ ∃ s',
            allocLoop (nunitsOf 16 80) fuel BASE
              ((after 16 2 9 [Op.alloc 64, Op.free 3]).1.mem BASE).next
              (after 16 2 9 [Op.alloc 64, Op.free 3]).1 = some (none, s'))) ∨
        (∃ p s',
          memory_allocF sbrkFails 16 80 fuel (after 16 2 9 [Op.alloc 64, Op.free 3]).1 =
            some (Outcome.returned p s') ∧
          (after 16 2 9 [Op.alloc 64, Op.free 3]).1.free_list ≠ NULL ∧
          allocLoop (nunitsOf 16 80) fuel BASE
            ((after 16 2 9 [Op.alloc 64, Op.free 3]).1.mem BASE).next
            (after 16 2 9 [Op.alloc 64, Op.free 3]).1 = some (some p, s'))) ∧
      ∀ h0 live, Reachable 16 h0 (after 16 2 9 [Op.alloc 64, Op.free 3]).1 live →
        ∃ F, ∀ fuel, F ≤ fuel →
          memory_allocF sbrkFails 16 80 fuel (after 16 2 9 [Op.alloc 64, Op.free 3]).1 ≠ none :=
  ⟨rfl, ⟨by decide, by decide, [Op.alloc 64, Op.free 3], 9, by decide, rfl, by decide⟩, rfl,
    C9_growth_failure_fatal 16 (after 16 2 9 [Op.alloc 64, Op.free 3]).1 sbrkFails 80 rfl⟩

/-- C10, as stated, fails when an `unsigned int` wraps. The calls `memory_alloc(16)`,
`memory_alloc(68719476720)` (`2 ^ 32 - 1` units: `1 + nunits` wraps, `sbrk(0)`), `memory_alloc(16)`
(the same block again, pointer 5 a second time), `memory_free(5)`, `memory_alloc(16)`,
`memory_free(3)`, `memory_free(5)`, `memory_free(5)`, `memory_alloc(16)` free live pointers
only and all return; they leave `base.next = 4` and `4.next = 4`, so no chain of `next` links
leads from the sentinel back to the sentinel, and the walk of the next `memory_alloc` does not
end, whatever the fuel. -/
theorem C10_counterexample :
    (run 16 9 [Op.alloc 16, Op.alloc 68719476720, Op.alloc 16, Op.free 5, Op.alloc 16,
        Op.free 3, Op.free 5, Op.free 5, Op.alloc 16] (initState 2, [])).isSome = true ∧
      ((after 16 2 9 [Op.alloc 16, Op.alloc 68719476720, Op.alloc 16, Op.free 5, Op.alloc 16,
        Op.free 3, Op.free 5, Op.free 5, Op.alloc 16]).1.mem BASE).next = 4 ∧
      ((after 16 2 9 [Op.alloc 16, Op.alloc 68719476720, Op.alloc 16, Op.free 5, Op.alloc 16,
        Op.free 3, Op.free 5, Op.free 5, Op.alloc 16]).1.mem 4).next = 4 ∧
      (¬ ∃ fl, Seg (after 16 2 9 [Op.alloc 16, Op.alloc 68719476720, Op.alloc 16, Op.free 5,
        Op.alloc 16, Op.free 3, Op.free 5, Op.free 5, Op.alloc 16]).1 BASE fl BASE) ∧
      (∀ fuel, memory_alloc (sbrkBump 16) 16 16 fuel
        (after 16 2 9 [Op.alloc 16, Op.alloc 68719476720, Op.alloc 16, Op.free 5, Op.alloc 16,
          Op.free 3, Op.free 5, Op.free 5, Op.alloc 16]).1 = none) := by
  refine ⟨by decide, rfl, rfl, ?_, ?_⟩
  · rintro ⟨fl, hfl⟩
    cases fl with
    | nil =>
      have h : (4 : Nat) = BASE := hfl
      exact absurd h (by decide)
    | cons x l =>
      have hx : x = 4 := hfl.1.symm
      rw [hx] at hfl
      exact Seg_self_loop _ 4 BASE rfl (by decide) l hfl.2
  · intro fuel
    rw [memory_alloc_init _ _ _ _ _ rfl]
    have h4 : ((after 16 2 9 [Op.alloc 16, Op.alloc 68719476720, Op.alloc 16, Op.free 5,
        Op.alloc 16, Op.free 3, Op.free 5, Op.free 5, Op.alloc 16]).1.mem BASE).next = 4 := rfl
    rw [h4, allocLoop_self_loop (nunitsOf 16 16) _ 4 rfl (by decide) (by decide) fuel BASE]

/-- C10 as amended (circular free list, no `unsigned int` wrap): on every configuration
reached by valid calls in which no `unsigned int` arithmetic wraps (every request has
`1 + nunits < 2 ^ 32` and the region stays below `2 ^ 32` units), once
`free_list` is set (after the first `memory_alloc`), the `next` links lead from the sentinel
through finitely many blocks `fl`, none visited twice and none the sentinel, back to the
sentinel, and `base.size` is 0; hence for every fuel above the length of `fl` the walk of
`memory_alloc` ends, `memory_alloc` returns a pointer that is not the payload of the
sentinel, and the walk of `memory_free` ends. -/
theorem C10_circular_list (hs h0 : Nat) (s : State) (live : List Nat)
    (hR : Reachable hs h0 s live) (hinit : s.free_list ≠ NULL) :
    ∃ fl, Seg s BASE fl BASE ∧ (BASE :: fl).Nodup ∧ (s.mem BASE).size = 0 ∧
      (∀ n fuel, fl.length < fuel →
        ∃ r, allocLoop n fuel BASE (s.mem BASE).next s = some r) ∧
      (∀ bytes fuel, fl.length < fuel → ∃ p s',
        memory_alloc (sbrkBump hs) hs bytes fuel s = some (p, s') ∧ p ≠ BASE + 1) ∧
      (∀ ptr fuel, fl.length < fuel → ∃ s', memory_free ptr fuel s = some s') := by
  have hB : BASE = 1 := rfl
  rcases reachable_valid hR with ⟨hi, _, _⟩ | ⟨fl, hd, _, hI⟩
  · rw [hi] at hinit
    exact absurd rfl hinit
  · refine ⟨fl, hI.seg, hI.base_nodup, hI.base_size, ?_, ?_, ?_⟩
    · intro n fuel hf
      obtain ⟨r, s1, hl, _⟩ := allocLoop_total n s fl BASE fuel hI.seg hI.base_not_mem hf
      exact ⟨_, hl⟩
    · intro bytes fuel hf
      obtain ⟨r, s1, hl, hp⟩ := allocLoop_total (nunitsOf hs bytes) s fl BASE fuel hI.seg
        hI.base_not_mem hf
      rw [memory_alloc_init _ _ _ _ _ hI.fl_init, hl]
      cases r with
      | none =>
        refine ⟨_, _, rfl, ?_⟩
        have h1 := allocLoop_brk _ _ _ _ _ _ _ hl
        have h2 := hI.brk_ge
        have h3 := hI.h0_gt
        simp only [increase_heap, sbrkBump, h1]
        omega
      | some q => exact ⟨_, _, rfl, hp q rfl⟩
    · intro ptr fuel hf
      exact freeLoop_total (ptr - 1) s fl BASE fuel hI.seg hI.base_not_mem hf

theorem C10_circular_list_witness :
    Reachable 16 2 (after 16 2 9 [Op.alloc 64, Op.alloc 16, Op.free 3]).1
        (after 16 2 9 [Op.alloc 64, Op.alloc 16, Op.free 3]).2 ∧
      (after 16 2 9 [Op.alloc 64, Op.alloc 16, Op.free 3]).1.free_list ≠ NULL ∧
      ∃ fl, Seg (after 16 2 9 [Op.alloc 64, Op.alloc 16, Op.free 3]).1 BASE fl BASE ∧
        (BASE :: fl).Nodup ∧
        ((after 16 2 9 [Op.alloc 64, Op.alloc 16, Op.free 3]).1.mem BASE).size = 0 ∧
        (∀ n fuel, fl.length < fuel → ∃ r,
          allocLoop n fuel BASE
            ((after 16 2 9 [Op.alloc 64, Op.alloc 16, Op.free 3]).1.mem BASE).next
            (after 16 2 9 [Op.alloc 64, Op.alloc 16, Op.free 3]).1 = some r) ∧
        (∀ bytes fuel, fl.length < fuel → ∃ p s',
          memory_alloc (sbrkBump 16) 16 bytes fuel
            (after 16 2 9 [Op.alloc 64, Op.alloc 16, Op.free 3]).1 = some (p, s') ∧
          p ≠ BASE + 1) ∧
        (∀ ptr fuel, fl.length < fuel → ∃ s',
          memory_free ptr fuel (after 16 2 9 [Op.alloc 64, Op.alloc 16, Op.free 3]).1 =
            some s') :=
  have hR : Reachable 16 2 (after 16 2 9 [Op.alloc 64, Op.alloc 16, Op.free 3]).1
      (after 16 2 9 [Op.alloc 64, Op.alloc 16, Op.free 3]).2 :=
    ⟨by decide, by decide, [Op.alloc 64, Op.alloc 16, Op.free 3], 9, by decide, rfl,
      by decide⟩
  ⟨hR, by decide, C10_circular_list 16 2 _ _ hR (by decide)⟩

/-- C11, as stated, fails: on the configuration reached by `memory_alloc(64)`,
`memory_free(3)` the free list is the block at header 2 of size 4 (capacity 4). A
`memory_alloc(16)` splits it and leaves the remainder at header 4 of size 2 (capacity 2, not
4); a `memory_alloc(80)` finds no fit, grows the heap (cursor 7 to 13) and leaves the free
list as it was (capacity 4, not larger). -/
theorem C11_counterexample :
    Seg (after 16 2 9 [Op.alloc 64, Op.free 3]).1 BASE [2] BASE ∧
      freeCapacity (after 16 2 9 [Op.alloc 64, Op.free 3]).1 [2] = 4 ∧
      Seg (after 16 2 9 [Op.alloc 64, Op.free 3, Op.alloc 16]).1 BASE [4] BASE ∧
      freeCapacity (after 16 2 9 [Op.alloc 64, Op.free 3, Op.alloc 16]).1 [4] = 2 ∧
      (after 16 2 9 [Op.alloc 64, Op.free 3]).1.brk = 7 ∧
      (after 16 2 9 [Op.alloc 64, Op.free 3, Op.alloc 80]).1.brk = 13 ∧
      Seg (after 16 2 9 [Op.alloc 64, Op.free 3, Op.alloc 80]).1 BASE [2] BASE ∧
      freeCapacity (after 16 2 9 [Op.alloc 64, Op.free 3, Op.alloc 80]).1 [2] = 4 := by
  refine ⟨⟨rfl, rfl⟩, ?_, ⟨rfl, rfl⟩, ?_, ?_, ?_, ⟨rfl, rfl⟩, ?_⟩ <;> decide

/-- C11 as amended (free capacity across `memory_alloc`): on a configuration reached by valid
calls with free list `fl`, a `memory_alloc (u units)` that splits the block `h` lowers the
total free capacity by `u + 1` (the `u` units handed out and the header of the remainder),
and a `memory_alloc (u units)` that finds no fit grows the heap by `1 + u` units and leaves
the free list and its total capacity unchanged. -/
theorem C11_free_capacity (hs h0 : Nat) (s : State) (live fl : List Nat)
    (hR : Reachable hs h0 s live) (hseg : Seg s BASE fl BASE) (hnb : BASE ∉ fl)
    (u : Nat) (hu : 1 ≤ u) (huU : u + 1 < UINT) :
    (∀ pre h post, fl = pre ++ h :: post → (∀ b ∈ pre, (s.mem b).size < u) →
      u < (s.mem h).size → ∀ fuel, pre.length < fuel → ∃ s',
        memory_alloc (sbrkBump hs) hs (u * hs) fuel s = some (h + 1, s') ∧
        Seg s' BASE (pre ++ (h + 1 + u) :: post) BASE ∧ BASE ∉ pre ++ (h + 1 + u) :: post ∧
        freeCapacity s' (pre ++ (h + 1 + u) :: post) + (u + 1) = freeCapacity s fl) ∧
    ((∀ b ∈ fl, (s.mem b).size < u) → ∀ fuel, fl.length < fuel → ∃ s',
        memory_alloc (sbrkBump hs) hs (u * hs) fuel s = some (s.brk + 1, s') ∧
        s'.brk = s.brk + (1 + u) ∧ Seg s' BASE fl BASE ∧
        freeCapacity s' fl = freeCapacity s fl) := by
  have hhs : 0 < hs := hR.1
  have huu : nunitsOf hs (u * hs) = u := nunitsOf_units hs u hhs hu (by omega)
  obtain ⟨hd, _, hI⟩ := reach_inv hR hseg hnb
  constructor
  · intro pre h post hfl hpre hlt fuel hfuel
    subst hfl
    have hI' := inv_split u hI hlt
    have ha := alloc_split (sbrkBump hs) hs (u * hs) fuel hI (by rw [huu]; exact hpre)
      (by rw [huu]; exact hlt)
    rw [if_neg (by omega), huu] at ha
    obtain ⟨_, hr, hpr⟩ := nodup_split BASE pre (h + 1 + u) post hI'.base_nodup
    obtain ⟨_, hh, hph⟩ := nodup_split BASE pre h post hI.base_nodup
    refine ⟨_, ha, hI'.seg, hI'.base_not_mem, ?_⟩
    have hne : h + 1 + u ≠ h := by omega
    rw [cap_append, cap_cons, cap_append, cap_cons]
    rw [cap_congr s _ pre, cap_congr s _ post]
    · simp only [setSize_size, setNext_size, if_neg hne, if_true]
      omega
    · intro x hx
      have h1 : x ≠ h := (hph x hx).2
      have h2 : x ≠ h + 1 + u := (hpr x hx).2
      simp [h1, h2]
    · intro x hx
      have h1 : x ≠ h := fun e => hh (e ▸ List.mem_cons_of_mem _ hx)
      have h2 : x ≠ h + 1 + u := fun e => hr (e ▸ List.mem_cons_of_mem _ hx)
      simp [h1, h2]
  · intro hno fuel hfuel
    have ha := alloc_nofit hs (u * hs) fuel hI hhs (by rw [huu]; exact huU)
      (by rw [huu]; exact hno)
    rw [if_neg (by omega), huu] at ha
    refine ⟨_, ha, by simp, ?_, ?_⟩
    · refine Seg_frame s _ fl BASE BASE ?_ hI.seg
      intro x hx
      simp [hI.ne_brk x hx]
    · refine cap_congr s _ fl ?_
      intro x hx
      simp [hI.ne_brk x (List.mem_cons_of_mem _ hx)]

theorem C11_free_capacity_witness :
    Reachable 16 2 (after 16 2 9 [Op.alloc 64, Op.free 3]).1
        (after 16 2 9 [Op.alloc 64, Op.free 3]).2 ∧
      Seg (after 16 2 9 [Op.alloc 64, Op.free 3]).1 BASE [2] BASE ∧ BASE ∉ [2] ∧ 1 ≤ 1 ∧
      1 + 1 < UINT ∧
      ∃ s', memory_alloc (sbrkBump 16) 16 (1 * 16) 9 (after 16 2 9 [Op.alloc 64, Op.free 3]).1 =
          some (2 + 1, s') ∧
        Seg s' BASE ([] ++ (2 + 1 + 1) :: []) BASE ∧ BASE ∉ [] ++ (2 + 1 + 1) :: [] ∧
        freeCapacity s' ([] ++ (2 + 1 + 1) :: []) + (1 + 1) =
          freeCapacity (after 16 2 9 [Op.alloc 64, Op.free 3]).1 [2] :=
  have hR : Reachable 16 2 (after 16 2 9 [Op.alloc 64, Op.free 3]).1
      (after 16 2 9 [Op.alloc 64, Op.free 3]).2 :=
    ⟨by decide, by decide, [Op.alloc 64, Op.free 3], 9, by decide, rfl, by decide⟩
  ⟨hR, ⟨rfl, rfl⟩, by decide, by decide, by decide,
    (C11_free_capacity 16 2 _ _ [2] hR ⟨rfl, rfl⟩ (by decide) 1 (by decide) (by decide)).1
      [] 2 [] rfl (by intro b hb; cases hb) (by decide) 9 (by decide)⟩

/-- C12 (first fit): on a configuration reached by valid calls with free list `fl` and for
every unit count `u ≥ 1`, whatever the growth primitive: if `h` is the first block of `fl`
with `size ≥ u`, the walk of `memory_alloc (u units)` returns `h + 1` (for every fuel above
the number of blocks before `h`), the blocks before `h` keep their sizes and their places at
the head of the list, and the cursor does not move; if no block of `fl` has `size ≥ u`, the
walk ends without a fit on an unchanged state and the result of the call is that of one
`increase_heap(u)` on it. -/
theorem C12_first_fit (sbrk : Sbrk) (hs h0 : Nat) (s : State) (live fl : List Nat)
    (hR : Reachable hs h0 s live) (hseg : Seg s BASE fl BASE) (hnb : BASE ∉ fl)
    (u : Nat) (hu : 1 ≤ u) (huU : u < UINT) :
    (∀ pre h post, fl = pre ++ h :: post → (∀ b ∈ pre, (s.mem b).size < u) →
      u ≤ (s.mem h).size → ∀ fuel, pre.length < fuel → ∃ s' post',
        allocLoop u fuel BASE (s.mem BASE).next s = some (some (h + 1), s') ∧
        memory_alloc sbrk hs (u * hs) fuel s = some (h + 1, s') ∧
        Seg s' BASE (pre ++ post') BASE ∧ BASE ∉ pre ++ post' ∧
        (∀ b ∈ pre, (s'.mem b).size = (s.mem b).size) ∧ s'.brk = s.brk) ∧
    ((∀ b ∈ fl, (s.mem b).size < u) → ∀ fuel, fl.length < fuel →
        allocLoop u fuel BASE (s.mem BASE).next s = some (none, s) ∧
        memory_alloc sbrk hs (u * hs) fuel s =
          some ((increase_heap sbrk hs u s).1 + 1, (increase_heap sbrk hs u s).2)) := by
  have hhs : 0 < hs := hR.1
  have huu : nunitsOf hs (u * hs) = u := nunitsOf_units hs u hhs hu huU
  obtain ⟨hd, _, hI⟩ := reach_inv hR hseg hnb
  constructor
  · intro pre h post hfl hpre hle fuel hfuel
    subst hfl
    obtain ⟨_, hh, hph⟩ := nodup_split BASE pre h post hI.base_nodup
    rcases Nat.eq_or_lt_of_le hle with heq | hlt
    · have hI' := inv_exact hI
      have hl := loop_exact u fuel hI hpre heq.symm
      have ha := alloc_exact sbrk hs (u * hs) fuel hI (by rw [huu]; exact hpre)
        (by rw [huu]; exact heq.symm)
      rw [if_neg (by omega)] at hl ha
      exact ⟨_, post, hl, ha, hI'.seg, hI'.base_not_mem, fun b _ => by simp, by simp⟩
    · have hI' := inv_split u hI hlt
      have hl := loop_split u fuel hI hpre hlt
      have ha := alloc_split sbrk hs (u * hs) fuel hI (by rw [huu]; exact hpre)
        (by rw [huu]; exact hlt)
      rw [if_neg (by omega)] at hl ha
      rw [huu] at ha
      obtain ⟨_, hr, _⟩ := nodup_split BASE pre (h + 1 + u) post hI'.base_nodup
      refine ⟨_, (h + 1 + u) :: post, hl, ha, hI'.seg, hI'.base_not_mem, ?_, by simp⟩
      intro x hx
      have h1 : x ≠ h := fun e => hh (e ▸ List.mem_cons_of_mem _ hx)
      have h2 : x ≠ h + 1 + u := fun e => hr (e ▸ List.mem_cons_of_mem _ hx)
      simp [h1, h2]
  · intro hno fuel hfuel
    have hl := loop_nofit u fuel hI hno
    have ha := alloc_nofit_any sbrk hs (u * hs) fuel hI (by rw [huu]; exact hno)
    rw [if_neg (by omega)] at hl ha
    rw [huu] at ha
    exact ⟨hl, ha⟩

theorem C12_first_fit_witness :
    Reachable 16 2
        (after 16 2 9 [Op.alloc 16, Op.alloc 16, Op.alloc 64, Op.alloc 16, Op.free 3,
          Op.free 7]).1
        (after 16 2 9 [Op.alloc 16, Op.alloc 16, Op.alloc 64, Op.alloc 16, Op.free 3,
          Op.free 7]).2 ∧
      Seg (after 16 2 9 [Op.alloc 16, Op.alloc 16, Op.alloc 64, Op.alloc 16, Op.free 3,
          Op.free 7]).1 BASE [2, 6] BASE ∧ BASE ∉ [2, 6] ∧ 1 ≤ 3 ∧ 3 < UINT ∧
      ∃ s' post',
        allocLoop 3 9 BASE
          ((after 16 2 9 [Op.alloc 16, Op.alloc 16, Op.alloc 64, Op.alloc 16, Op.free 3,
            Op.free 7]).1.mem BASE).next
          (after 16 2 9 [Op.alloc 16, Op.alloc 16, Op.alloc 64, Op.alloc 16, Op.free 3,
            Op.free 7]).1 = some (some (6 + 1), s') ∧
        memory_alloc (sbrkBump 16) 16 (3 * 16) 9
          (after 16 2 9 [Op.alloc 16, Op.alloc 16, Op.alloc 64, Op.alloc 16, Op.free 3,
            Op.free 7]).1 = some (6 + 1, s') ∧
        Seg s' BASE ([2] ++ post') BASE ∧ BASE ∉ [2] ++ post' ∧
        (∀ b ∈ [2], (s'.mem b).size =
          ((after 16 2 9 [Op.alloc 16, Op.alloc 16, Op.alloc 64, Op.alloc 16, Op.free 3,
            Op.free 7]).1.mem b).size) ∧
        s'.brk = (after 16 2 9 [Op.alloc 16, Op.alloc 16, Op.alloc 64, Op.alloc 16, Op.free 3,
          Op.free 7]).1.brk :=
  have hR : Reachable 16 2
      (after 16 2 9 [Op.alloc 16, Op.alloc 16, Op.alloc 64, Op.alloc 16, Op.free 3,
        Op.free 7]).1
      (after 16 2 9 [Op.alloc 16, Op.alloc 16, Op.alloc 64, Op.alloc 16, Op.free 3,
        Op.free 7]).2 :=
    ⟨by decide, by decide,
      [Op.alloc 16, Op.alloc 16, Op.alloc 64, Op.alloc 16, Op.free 3, Op.free 7], 9,
      by decide, rfl, by decide⟩
  ⟨hR, ⟨rfl, rfl, rfl⟩, by decide, by decide, by decide,
    (C12_first_fit (sbrkBump 16) 16 2 _ _ [2, 6] hR ⟨rfl, rfl, rfl⟩ (by decide) 3 (by decide)
      (by decide)).1 [2] 6 [] rfl (by decide) (by decide) 9 (by decide)⟩

/-- C13 (exact fit unlinks only the matched block): on a configuration reached by valid
calls whose free list is `pre ++ h :: post` with the blocks of `pre` smaller than `u` and
`size h = u`, `memory_alloc (u units)` returns `h + 1`, the free list afterwards is
`pre ++ post` (the list before with `h` erased), no size field changes (so `size h` is still
`u`), and `h.next` is null. -/
theorem C13_exact_fit (sbrk : Sbrk) (hs h0 : Nat) (s : State) (live : List Nat)
    (hR : Reachable hs h0 s live) (u : Nat) (hu : 1 ≤ u) (huU : u < UINT)
    (pre : List Nat) (h : Nat) (post : List Nat)
    (hseg : Seg s BASE (pre ++ h :: post) BASE) (hnb : BASE ∉ pre ++ h :: post)
    (hpre : ∀ b ∈ pre, (s.mem b).size < u) (hfit : (s.mem h).size = u) :
    ∀ fuel, pre.length < fuel → ∃ s',
      memory_alloc sbrk hs (u * hs) fuel s = some (h + 1, s') ∧
      Seg s' BASE (pre ++ post) BASE ∧ BASE ∉ pre ++ post ∧
      (pre ++ h :: post).erase h = pre ++ post ∧
      (∀ b, (s'.mem b).size = (s.mem b).size) ∧
      (s'.mem h).next = NULL ∧ (s'.mem h).size = u ∧ s'.brk = s.brk := by
  intro fuel hfuel
  have hhs : 0 < hs := hR.1
  have huu : nunitsOf hs (u * hs) = u := nunitsOf_units hs u hhs hu huU
  obtain ⟨hd, _, hI⟩ := reach_inv hR hseg hnb
  obtain ⟨_, hh, _⟩ := nodup_split BASE pre h post hI.base_nodup
  have hI' := inv_exact hI
  have ha := alloc_exact sbrk hs (u * hs) fuel hI (by rw [huu]; exact hpre)
    (by rw [huu]; exact hfit)
  rw [if_neg (by omega)] at ha
  have hhp : h ∉ pre := fun e => hh (List.mem_cons_of_mem _ e)
  refine ⟨_, ha, hI'.seg, hI'.base_not_mem, ?_, fun b => by simp, by simp, by simpa using hfit,
    by simp⟩
  rw [List.erase_append_right _ hhp, List.erase_cons_head]

theorem C13_exact_fit_witness :
    Reachable 16 2 (after 16 2 9 [Op.alloc 64, Op.free 3]).1
        (after 16 2 9 [Op.alloc 64, Op.free 3]).2 ∧ 1 ≤ 4 ∧ 4 < UINT ∧
      Seg (after 16 2 9 [Op.alloc 64, Op.free 3]).1 BASE ([] ++ 2 :: []) BASE ∧
      BASE ∉ [] ++ 2 :: [] ∧
      ((after 16 2 9 [Op.alloc 64, Op.free 3]).1.mem 2).size = 4 ∧
      ∃ s', memory_alloc (sbrkBump 16) 16 (4 * 16) 9 (after 16 2 9 [Op.alloc 64, Op.free 3]).1 =
          some (2 + 1, s') ∧
        Seg s' BASE ([] ++ []) BASE ∧ BASE ∉ [] ++ [] ∧
        ([] ++ 2 :: []).erase 2 = [] ++ [] ∧
        (∀ b, (s'.mem b).size = ((after 16 2 9 [Op.alloc 64, Op.free 3]).1.mem b).size) ∧
        (s'.mem 2).next = NULL ∧ (s'.mem 2).size = 4 ∧
        s'.brk = (after 16 2 9 [Op.alloc 64, Op.free 3]).1.brk :=
  have hR : Reachable 16 2 (after 16 2 9 [Op.alloc 64, Op.free 3]).1
      (after 16 2 9 [Op.alloc 64, Op.free 3]).2 :=
    ⟨by decide, by decide, [Op.alloc 64, Op.free 3], 9, by decide, rfl, by decide⟩
  ⟨hR, by decide, by decide, ⟨rfl, rfl⟩, by decide, rfl,
    C13_exact_fit (sbrkBump 16) 16 2 _ _ hR 4 (by decide) (by decide) [] 2 [] ⟨rfl, rfl⟩
      (by decide) (by intro b hb; cases hb) rfl 9 (by decide)⟩

/-- C14 (no-fit growth leaves the free list untouched): on a configuration reached by valid
calls with free list `fl` none of whose blocks has `size ≥ u`, `memory_alloc (u units)`
returns, for every fuel above the length of `fl`, the payload address of the block produced
by `increase_heap(u)`, in the state `increase_heap(u)` leaves; the sentinel and every block
of `fl` keep their `size` and `next`, so the list is the same sequence of blocks. -/
theorem C14_no_fit_growth (hs h0 : Nat) (s : State) (live fl : List Nat)
    (hR : Reachable hs h0 s live) (hseg : Seg s BASE fl BASE) (hnb : BASE ∉ fl)
    (u : Nat) (hu : 1 ≤ u) (huU : u < UINT) (hno : ∀ b ∈ fl, (s.mem b).size < u) :
    ∀ fuel, fl.length < fuel → ∃ s',
      memory_alloc (sbrkBump hs) hs (u * hs) fuel s =
        some ((increase_heap (sbrkBump hs) hs u s).1 + 1, s') ∧
      s' = (increase_heap (sbrkBump hs) hs u s).2 ∧
      (increase_heap (sbrkBump hs) hs u s).1 = s.brk ∧
      Seg s' BASE fl BASE ∧
      (∀ b ∈ BASE :: fl, (s'.mem b).size = (s.mem b).size ∧
        (s'.mem b).next = (s.mem b).next) ∧
      s'.free_list = s.free_list := by
  intro fuel hfuel
  have hhs : 0 < hs := hR.1
  have huu : nunitsOf hs (u * hs) = u := nunitsOf_units hs u hhs hu huU
  obtain ⟨hd, _, hI⟩ := reach_inv hR hseg hnb
  have ha := alloc_nofit_any (sbrkBump hs) hs (u * hs) fuel hI (by rw [huu]; exact hno)
  rw [if_neg (by omega), huu] at ha
  have hfr : ∀ b ∈ BASE :: fl,
      (((increase_heap (sbrkBump hs) hs u s).2).mem b).size = (s.mem b).size ∧
      (((increase_heap (sbrkBump hs) hs u s).2).mem b).next = (s.mem b).next := by
    intro b hb
    have := hI.ne_brk b hb
    simp [increase_heap, sbrkBump, this]
  refine ⟨_, ha, rfl, rfl, ?_, hfr, rfl⟩
  exact Seg_frame s _ fl BASE BASE (fun x hx => (hfr x hx).2) hI.seg

theorem C14_no_fit_growth_witness :
    Reachable 16 2 (after 16 2 9 [Op.alloc 64, Op.free 3]).1
        (after 16 2 9 [Op.alloc 64, Op.free 3]).2 ∧
      Seg (after 16 2 9 [Op.alloc 64, Op.free 3]).1 BASE [2] BASE ∧ BASE ∉ [2] ∧ 1 ≤ 5 ∧
      5 < UINT ∧
      (∀ b ∈ [2], ((after 16 2 9 [Op.alloc 64, Op.free 3]).1.mem b).size < 5) ∧
      ∃ s', memory_alloc (sbrkBump 16) 16 (5 * 16) 9 (after 16 2 9 [Op.alloc 64, Op.free 3]).1 =
          some ((increase_heap (sbrkBump 16) 16 5
            (after 16 2 9 [Op.alloc 64, Op.free 3]).1).1 + 1, s') ∧
        s' = (increase_heap (sbrkBump 16) 16 5 (after 16 2 9 [Op.alloc 64, Op.free 3]).1).2 ∧
        (increase_heap (sbrkBump 16) 16 5 (after 16 2 9 [Op.alloc 64, Op.free 3]).1).1 =
          (after 16 2 9 [Op.alloc 64, Op.free 3]).1.brk ∧
        Seg s' BASE [2] BASE ∧
        (∀ b ∈ BASE :: [2],
          (s'.mem b).size = ((after 16 2 9 [Op.alloc 64, Op.free 3]).1.mem b).size ∧
          (s'.mem b).next = ((after 16 2 9 [Op.alloc 64, Op.free 3]).1.mem b).next) ∧
        s'.free_list = (after 16 2 9 [Op.alloc 64, Op.free 3]).1.free_list :=
  have hR : Reachable 16 2 (after 16 2 9 [Op.alloc 64, Op.free 3]).1
      (after 16 2 9 [Op.alloc 64, Op.free 3]).2 :=
    ⟨by decide, by decide, [Op.alloc 64, Op.free 3], 9, by decide, rfl, by decide⟩
  ⟨hR, ⟨rfl, rfl⟩, by decide, by decide, by decide, by decide,
    C14_no_fit_growth 16 2 _ _ [2] hR ⟨rfl, rfl⟩ (by decide) 5 (by decide) (by decide)
      (by decide) 9 (by decide)⟩

/-- C17 (release, no-neighbour case): on a configuration reached by valid calls with free
list `fl`, for a live pointer `f + 1` such that no block of `fl` passes either adjacency
test, `memory_free` returns for every fuel above the length of `fl`; afterwards the free list
is `fl ++ [f]`: the old last block (the sentinel when `fl` is empty) points to `f`, `f.next`
is the sentinel, the other links are as before, and no size field changes. -/
theorem C17_no_neighbour (hs h0 : Nat) (s : State) (live fl : List Nat)
    (hR : Reachable hs h0 s live) (f : Nat) (hf : f + 1 ∈ live)
    (hseg : Seg s BASE fl BASE) (hnb : BASE ∉ fl)
    (hno : ∀ b ∈ fl, b + 1 + (s.mem b).size ≠ f ∧ f + 1 + (s.mem f).size ≠ b) :
    ∀ fuel, fl.length < fuel → ∃ s',
      memory_free (f + 1) fuel s = some s' ∧
      Seg s' BASE (fl ++ [f]) BASE ∧ BASE ∉ fl ++ [f] ∧
      (s'.mem (lastFrom BASE fl)).next = f ∧
      (s'.mem f).next = BASE ∧
      (∀ x, x ≠ lastFrom BASE fl → x ≠ f → (s'.mem x).next = (s.mem x).next) ∧
      (∀ x, (s'.mem x).size = (s.mem x).size) := by
  intro fuel hfuel
  obtain ⟨hd, hlive, hI⟩ := reach_inv hR hseg hnb
  have hfh : f ∈ hd := live_header hlive hf
  have hI' := inv_append hI hfh
  have ha := free_append f fuel hI hno
  rw [if_neg (by omega)] at ha
  have hfn : f ∉ BASE :: fl := by
    intro hm
    rcases List.mem_cons.mp hm with e | hm
    · exact hI.ne_base (List.mem_append_right _ hfh) e
    · exact (List.nodup_append.mp hI.nodup).2.2 hm hfh
  have hlast : lastFrom BASE fl ≠ f := fun e => hfn (e ▸ lastFrom_mem fl BASE)
  refine ⟨_, ha, hI'.seg, hI'.base_not_mem, by simp [hlast], by simp, ?_, fun x => by simp⟩
  intro x h1 h2
  simp [h1, h2]

theorem C17_no_neighbour_witness :
    Reachable 16 2 (after 16 2 9 [Op.alloc 16, Op.alloc 16, Op.alloc 16, Op.free 3]).1
        (after 16 2 9 [Op.alloc 16, Op.alloc 16, Op.alloc 16, Op.free 3]).2 ∧
      6 + 1 ∈ (after 16 2 9 [Op.alloc 16, Op.alloc 16, Op.alloc 16, Op.free 3]).2 ∧
      Seg (after 16 2 9 [Op.alloc 16, Op.alloc 16, Op.alloc 16, Op.free 3]).1 BASE [2] BASE ∧
      BASE ∉ [2] ∧
      (∀ b ∈ [2],
        b + 1 + ((after 16 2 9 [Op.alloc 16, Op.alloc 16, Op.alloc 16, Op.free 3]).1.mem b).size
          ≠ 6 ∧
        6 + 1 + ((after 16 2 9 [Op.alloc 16, Op.alloc 16, Op.alloc 16, Op.free 3]).1.mem 6).size
          ≠ b) ∧
      ∃ s', memory_free (6 + 1) 9
          (after 16 2 9 [Op.alloc 16, Op.alloc 16, Op.alloc 16, Op.free 3]).1 = some s' ∧
        Seg s' BASE ([2] ++ [6]) BASE ∧ BASE ∉ [2] ++ [6] ∧
        (s'.mem (lastFrom BASE [2])).next = 6 ∧
        (s'.mem 6).next = BASE ∧
        (∀ x, x ≠ lastFrom BASE [2] → x ≠ 6 → (s'.mem x).next =
          ((after 16 2 9 [Op.alloc 16, Op.alloc 16, Op.alloc 16, Op.free 3]).1.mem x).next) ∧
        (∀ x, (s'.mem x).size =
          ((after 16 2 9 [Op.alloc 16, Op.alloc 16, Op.alloc 16, Op.free 3]).1.mem x).size) :=
  have hR : Reachable 16 2 (after 16 2 9 [Op.alloc 16, Op.alloc 16, Op.alloc 16, Op.free 3]).1
      (after 16 2 9 [Op.alloc 16, Op.alloc 16, Op.alloc 16, Op.free 3]).2 :=
    ⟨by decide, by decide, [Op.alloc 16, Op.alloc 16, Op.alloc 16, Op.free 3], 9, by decide,
      rfl, by decide⟩
  ⟨hR, by decide, ⟨rfl, rfl⟩, by decide, by decide,
    C17_no_neighbour 16 2 _ _ [2] hR 6 (by decide) ⟨rfl, rfl⟩ (by decide) (by decide) 9
      (by decide)⟩

/-- C18 (at most one merge per release): on a configuration reached by valid calls with free
list `fl`, `memory_free` of a live pointer `f + 1` returns for every fuel above the length of
`fl` and leaves a circular free list `fl'` that is either `fl ++ [f]` with all sizes
unchanged (no block passes an adjacency test), or, `b` being the first block of `fl` that
passes a test, `fl` itself or `fl` with `f` in the place of `b`, every block of `fl` other
than `b` keeping its size; so the number of blocks is the number before or one more, never
less. -/
theorem C18_one_merge (hs h0 : Nat) (s : State) (live fl : List Nat)
    (hR : Reachable hs h0 s live) (f : Nat) (hf : f + 1 ∈ live)
    (hseg : Seg s BASE fl BASE) (hnb : BASE ∉ fl) :
    ∀ fuel, fl.length < fuel → ∃ s' fl',
      memory_free (f + 1) fuel s = some s' ∧
      Seg s' BASE fl' BASE ∧ BASE ∉ fl' ∧
      (((∀ b ∈ fl, b + 1 + (s.mem b).size ≠ f ∧ f + 1 + (s.mem f).size ≠ b) ∧
          fl' = fl ++ [f] ∧ ∀ x, (s'.mem x).size = (s.mem x).size) ∨
        (∃ pre b post, fl = pre ++ b :: post ∧
          (∀ x ∈ pre, x + 1 + (s.mem x).size ≠ f ∧ f + 1 + (s.mem f).size ≠ x) ∧
          (b + 1 + (s.mem b).size = f ∨ f + 1 + (s.mem f).size = b) ∧
          (fl' = fl ∨ fl' = pre ++ f :: post) ∧
          ∀ x ∈ fl, x ≠ b → (s'.mem x).size = (s.mem x).size)) ∧
      (fl'.length = fl.length ∨ fl'.length = fl.length + 1) ∧ fl.length ≤ fl'.length := by
  intro fuel hfuel
  obtain ⟨hd, hlive, hI⟩ := reach_inv hR hseg hnb
  have hfh : f ∈ hd := live_header hlive hf
  have hffl : ∀ x ∈ fl, x ≠ f := fun x hx e =>
    (List.nodup_append.mp hI.nodup).2.2 hx (e ▸ hfh)
  rcases first_split
    (fun b => b + 1 + (s.mem b).size = f ∨ f + 1 + (s.mem f).size = b) fl with hno | hyes
  · have hno' : ∀ b ∈ fl, b + 1 + (s.mem b).size ≠ f ∧ f + 1 + (s.mem f).size ≠ b :=
      fun b hb => not_or.mp (hno b hb)
    have hI' := inv_append hI hfh
    have ha := free_append f fuel hI hno'
    rw [if_neg (by omega)] at ha
    exact ⟨_, fl ++ [f], ha, hI'.seg, hI'.base_not_mem,
      Or.inl ⟨hno', rfl, fun x => by simp⟩, Or.inr (by simp), by simp⟩
  · obtain ⟨pre, b, post, hfl, hpre, hb⟩ := hyes
    subst hfl
    have hpre' : ∀ x ∈ pre, x + 1 + (s.mem x).size ≠ f ∧ f + 1 + (s.mem f).size ≠ x :=
      fun x hx => not_or.mp (hpre x hx)
    have hbm : b ∈ pre ++ b :: post := by simp
    have hlen : pre.length < fuel := by
      have : pre.length ≤ (pre ++ b :: post).length := by simp
      omega
    by_cases hl : b + 1 + (s.mem b).size = f
    · have hI' := inv_left hI hfh hbm hl
      have ha := free_left f fuel hI hpre' hl
      rw [if_neg (by omega)] at ha
      refine ⟨_, pre ++ b :: post, ha, hI'.seg, hI'.base_not_mem,
        Or.inr ⟨pre, b, post, rfl, hpre', hb, Or.inl rfl, ?_⟩, Or.inl rfl, le_refl _⟩
      intro x _ hx
      simp [hx]
    · have hr : f + 1 + (s.mem f).size = b := hb.resolve_left hl
      have hI' := inv_right hI hfh hr
      have ha := free_right f fuel hI hpre' hl hr
      rw [if_neg (by omega)] at ha
      refine ⟨_, pre ++ f :: post, ha, hI'.seg, hI'.base_not_mem,
        Or.inr ⟨pre, b, post, rfl, hpre', hb, Or.inr rfl, ?_⟩, Or.inl (by simp), by simp⟩
      intro x hx _
      simp [hffl x hx]

theorem C18_one_merge_witness :
    Reachable 16 2
        (after 16 2 9 [Op.alloc 16, Op.alloc 16, Op.alloc 16, Op.free 3, Op.free 7]).1
        (after 16 2 9 [Op.alloc 16, Op.alloc 16, Op.alloc 16, Op.free 3, Op.free 7]).2 ∧
      4 + 1 ∈ (after 16 2 9 [Op.alloc 16, Op.alloc 16, Op.alloc 16, Op.free 3, Op.free 7]).2 ∧
      Seg (after 16 2 9 [Op.alloc 16, Op.alloc 16, Op.alloc 16, Op.free 3, Op.free 7]).1 BASE
        [2, 6] BASE ∧
      BASE ∉ [2, 6] ∧
      ∃ s' fl',
        memory_free (4 + 1) 9
          (after 16 2 9 [Op.alloc 16, Op.alloc 16, Op.alloc 16, Op.free 3, Op.free 7]).1 =
          some s' ∧
        Seg s' BASE fl' BASE ∧ BASE ∉ fl' ∧
        (((∀ b ∈ [2, 6],
            b + 1 + ((after 16 2 9 [Op.alloc 16, Op.alloc 16, Op.alloc 16, Op.free 3,
              Op.free 7]).1.mem b).size ≠ 4 ∧
            4 + 1 + ((after 16 2 9 [Op.alloc 16, Op.alloc 16, Op.alloc 16, Op.free 3,
              Op.free 7]).1.mem 4).size ≠ b) ∧
            fl' = [2, 6] ++ [4] ∧
            ∀ x, (s'.mem x).size =
              ((after 16 2 9 [Op.alloc 16, Op.alloc 16, Op.alloc 16, Op.free 3,
                Op.free 7]).1.mem x).size) ∨
          (∃ pre b post, [2, 6] = pre ++ b :: post ∧
            (∀ x ∈ pre,
              x + 1 + ((after 16 2 9 [Op.alloc 16, Op.alloc 16, Op.alloc 16, Op.free 3,
                Op.free 7]).1.mem x).size ≠ 4 ∧
              4 + 1 + ((after 16 2 9 [Op.alloc 16, Op.alloc 16, Op.alloc 16, Op.free 3,
                Op.free 7]).1.mem 4).size ≠ x) ∧
            (b + 1 + ((after 16 2 9 [Op.alloc 16, Op.alloc 16, Op.alloc 16, Op.free 3,
                Op.free 7]).1.mem b).size = 4 ∨
              4 + 1 + ((after 16 2 9 [Op.alloc 16, Op.alloc 16, Op.alloc 16, Op.free 3,
                Op.free 7]).1.mem 4).size = b) ∧
            (fl' = [2, 6] ∨ fl' = pre ++ 4 :: post) ∧
            ∀ x ∈ [2, 6], x ≠ b → (s'.mem x).size =
              ((after 16 2 9 [Op.alloc 16, Op.alloc 16, Op.alloc 16, Op.free 3,
                Op.free 7]).1.mem x).size)) ∧
        (fl'.length = [2, 6].length ∨ fl'.length = [2, 6].length + 1) ∧
        [2, 6].length ≤ fl'.length :=
  have hR : Reachable 16 2
      (after 16 2 9 [Op.alloc 16, Op.alloc 16, Op.alloc 16, Op.free 3, Op.free 7]).1
      (after 16 2 9 [Op.alloc 16, Op.alloc 16, Op.alloc 16, Op.free 3, Op.free 7]).2 :=
    ⟨by decide, by decide, [Op.alloc 16, Op.alloc 16, Op.alloc 16, Op.free 3, Op.free 7], 9,
      by decide, rfl, by decide⟩
  ⟨hR, by decide, ⟨rfl, rfl, rfl⟩, by decide,
    C18_one_merge 16 2 _ _ [2, 6] hR 4 (by decide) ⟨rfl, rfl, rfl⟩ (by decide) 9 (by decide)⟩

/-- C19, as stated, fails at `u = 2 ^ 32 - 1`: the `unsigned int` sum `1 + u` wraps to 0, so
`increase_heap` requests 0 bytes, fewer than the `(1 + u) * HEADER_SIZE` needed for one
header and `u` units; with the bump cursor the cursor does not move, yet the header written
at it says `size = 2 ^ 32 - 1`. -/
theorem C19_counterexample :
    heapIncr 16 (UINT - 1) = 0 ∧ ¬ ((1 + (UINT - 1)) * 16 ≤ heapIncr 16 (UINT - 1)) ∧
      (increase_heap (sbrkBump 16) 16 (UINT - 1) (initState 2)).1 = 2 ∧
      (increase_heap (sbrkBump 16) 16 (UINT - 1) (initState 2)).2.brk = 2 ∧
      ((increase_heap (sbrkBump 16) 16 (UINT - 1) (initState 2)).2.mem 2).size = UINT - 1 := by
  decide

/-- C19 as amended (growth request size): for every unit count `u` with `1 + u < 2 ^ 32`
(no wrap of the `unsigned int` sum), `increase_heap(u)` calls the growth primitive once, at
the current cursor, with a byte count that is at least `(1 + u) * HEADER_SIZE`: exactly
`2 * HEADER_SIZE` when `u ≤ 1` and `(1 + u) * HEADER_SIZE` otherwise; it returns the pointer
the primitive returned, with `size = u` and `next = NULL` written in that header, every other
header and `free_list` unchanged. -/
theorem C19_growth_request (sbrk : Sbrk) (hs u : Nat) (s : State) (hu : 1 + u < UINT) :
    heapIncr hs u = (if u ≤ 1 then 2 * hs else (1 + u) * hs) ∧
      (1 + u) * hs ≤ heapIncr hs u ∧
      (increase_heap sbrk hs u s).1 = (sbrk (heapIncr hs u) s.brk).1 ∧
      (increase_heap sbrk hs u s).2.brk = (sbrk (heapIncr hs u) s.brk).2 ∧
      ((increase_heap sbrk hs u s).2.mem (increase_heap sbrk hs u s).1).size = u ∧
      ((increase_heap sbrk hs u s).2.mem (increase_heap sbrk hs u s).1).next = NULL ∧
      (∀ x, x ≠ (increase_heap sbrk hs u s).1 →
        ((increase_heap sbrk hs u s).2.mem x).size = (s.mem x).size ∧
        ((increase_heap sbrk hs u s).2.mem x).next = (s.mem x).next) ∧
      (increase_heap sbrk hs u s).2.free_list = s.free_list := by
  have hinc : heapIncr hs u = (if u ≤ 1 then 2 * hs else (1 + u) * hs) := by
    unfold heapIncr
    split_ifs
    · exact Nat.mul_comm _ _
    · rw [Nat.mod_eq_of_lt hu]
  refine ⟨hinc, ?_, rfl, rfl, by simp [increase_heap], by simp [increase_heap], ?_, rfl⟩
  · rw [hinc]
    split_ifs with h
    · exact Nat.mul_le_mul_right hs (by omega)
    · exact le_refl _
  · intro x hx
    have hx' : x ≠ (sbrk (heapIncr hs u) s.brk).1 := hx
    simp [increase_heap, hx']

theorem C19_growth_request_witness :
    1 + 3 < UINT ∧
      heapIncr 16 3 = (if 3 ≤ 1 then 2 * 16 else (1 + 3) * 16) ∧
      (1 + 3) * 16 ≤ heapIncr 16 3 ∧
      (increase_heap (sbrkBump 16) 16 3 (initState 2)).1 =
        (sbrkBump 16 (heapIncr 16 3) (initState 2).brk).1 ∧
      (increase_heap (sbrkBump 16) 16 3 (initState 2)).2.brk =
        (sbrkBump 16 (heapIncr 16 3) (initState 2).brk).2 ∧
      ((increase_heap (sbrkBump 16) 16 3 (initState 2)).2.mem
        (increase_heap (sbrkBump 16) 16 3 (initState 2)).1).size = 3 ∧
      ((increase_heap (sbrkBump 16) 16 3 (initState 2)).2.mem
        (increase_heap (sbrkBump 16) 16 3 (initState 2)).1).next = NULL ∧
      (∀ x, x ≠ (increase_heap (sbrkBump 16) 16 3 (initState 2)).1 →
        ((increase_heap (sbrkBump 16) 16 3 (initState 2)).2.mem x).size =
          ((initState 2).mem x).size ∧
        ((increase_heap (sbrkBump 16) 16 3 (initState 2)).2.mem x).next =
          ((initState 2).mem x).next) ∧
      (increase_heap (sbrkBump 16) 16 3 (initState 2)).2.free_list =
        (initState 2).free_list :=
  ⟨by decide, C19_growth_request (sbrkBump 16) 16 3 (initState 2) (by decide)⟩

/-- C20 (returned header size equals the request): on every configuration reached by valid
calls, the never-used allocator included, and for every byte count, `memory_alloc` returns
for every large enough fuel and the header in front of the returned pointer has size
`nunits`; this holds on each path, whatever the state and the growth primitive: when the
walk returns the pointer (exact fit and split) and for the block of `increase_heap` (heap
growth); and the very first call returns the block produced by `increase_heap` and leaves
the free list empty (`base.next == &base`). -/
theorem C20_returned_size (hs h0 : Nat) (s : State) (live : List Nat)
    (hR : Reachable hs h0 s live) (bytes : Nat) :
    (∃ F, ∀ fuel, F ≤ fuel → ∃ p s',
      memory_alloc (sbrkBump hs) hs bytes fuel s = some (p, s') ∧
      (s'.mem (p - 1)).size = nunitsOf hs bytes) ∧
    (∀ fuel prev block (t : State) p t',
      allocLoop (nunitsOf hs bytes) fuel prev block t = some (some p, t') →
      (t'.mem (p - 1)).size = nunitsOf hs bytes) ∧
    (∀ (sbrk : Sbrk) (t : State),
      ((increase_heap sbrk hs (nunitsOf hs bytes) t).2.mem
        ((increase_heap sbrk hs (nunitsOf hs bytes) t).1 + 1 - 1)).size = nunitsOf hs bytes) ∧
    (∀ (sbrk : Sbrk) fuel (t : State) p t',
      memory_alloc sbrk hs bytes fuel t = some (p, t') →
      (t'.mem (p - 1)).size = nunitsOf hs bytes) ∧
    (∀ fuel, 0 < fuel → ∃ s',
      memory_alloc (sbrkBump hs) hs bytes fuel (initState h0) =
        some ((increase_heap (sbrkBump hs) hs (nunitsOf hs bytes) (initState h0)).1 + 1, s') ∧
      (s'.mem BASE).next = BASE ∧ s'.free_list = BASE) := by
  have h0gt : BASE < h0 := hR.2.1
  refine ⟨?_, fun fuel prev block t p t' h => allocLoop_size _ _ _ _ _ _ _ h,
    fun sbrk t => by rw [Nat.add_sub_cancel]; exact increase_heap_size _ _ _ _,
    fun sbrk fuel t p t' h => memory_alloc_size _ _ _ _ _ _ _ h,
    fun fuel hf => alloc_first_empty hs bytes h0 fuel h0gt hf⟩
  have hret : ∃ F, ∀ fuel, F ≤ fuel → ∃ p s',
      memory_alloc (sbrkBump hs) hs bytes fuel s = some (p, s') := by
    rcases reachable_valid hR with ⟨hinit, _, _⟩ | ⟨fl, hd, _, hI⟩
    · refine ⟨1, fun fuel hf => ?_⟩
      obtain ⟨s', h', _⟩ := alloc_first_empty hs bytes h0 fuel h0gt (by omega)
      exact ⟨_, s', by rw [hinit]; exact h'⟩
    · refine ⟨fl.length + 1, fun fuel hf => ?_⟩
      obtain ⟨r, s1, hl, _⟩ := allocLoop_total (nunitsOf hs bytes) s fl BASE fuel hI.seg
        hI.base_not_mem (by omega)
      rw [memory_alloc_init _ _ _ _ _ hI.fl_init, hl]
      cases r with
      | none => exact ⟨_, _, rfl⟩
      | some q => exact ⟨_, _, rfl⟩
  obtain ⟨F, hF⟩ := hret
  refine ⟨F, fun fuel hf => ?_⟩
  obtain ⟨p, s', h'⟩ := hF fuel hf
  exact ⟨p, s', h', memory_alloc_size _ _ _ _ _ _ _ h'⟩

theorem C20_returned_size_witness :
    Reachable 16 2 (after 16 2 9 [Op.alloc 64, Op.free 3]).1
        (after 16 2 9 [Op.alloc 64, Op.free 3]).2 ∧
      ∃ F, ∀ fuel, F ≤ fuel → ∃ p s',
        memory_alloc (sbrkBump 16) 16 40 fuel (after 16 2 9 [Op.alloc 64, Op.free 3]).1 =
          some (p, s') ∧
        (s'.mem (p - 1)).size = nunitsOf 16 40 :=
  have hR : Reachable 16 2 (after 16 2 9 [Op.alloc 64, Op.free 3]).1
      (after 16 2 9 [Op.alloc 64, Op.free 3]).2 :=
    ⟨by decide, by decide, [Op.alloc 64, Op.free 3], 9, by decide, rfl, by decide⟩
  ⟨hR, (C20_returned_size 16 2 _ _ hR 40).1⟩

end Tlpi
